import Mathlib

/-!
# calcxporter: events sorted by date and rendered to an HTML reminder

A shallow embedding of `main.go`: the `Event` record, the `ByDate` comparator, the
renderer `createHtml` and the driver `main`, with its library calls as the fields of a
`World`.

Two library functions decide what `createHtml` returns and are embedded too, after the Go
standard library: `sort.Sort` (package `sort` since Go 1.19, the pattern-defeating
quicksort with its insertion sort and heap sort) and the verbs `%d` and `%s` of
`fmt.Sprintf`. `sort.Sort` is proved to sort and to permute for every input, and to leave
a sorted slice as it is; no statement below depends on the constants of its pseudo-random
generator.

Conventions of the embedding.
* A Go `int` is an `Int` when it is a field of an event (it is only compared and
  printed) and a `Nat` when it is a slice index (every index stays in `[0, n]`).
* A slice is the list of its cells; `cell` reads one and `Swap` exchanges two.
* A Go loop is a structural recursion whose counter is the number of iterations
  left, so that the recursion stops exactly where the loop does.
-/

namespace Calcxporter

/-! ## The standard library: `sort.Sort` -/

namespace GoSort

variable {α : Type} [Inhabited α]

/-- The method `Less(i, j)` of a `sort.Interface` over a slice. -/
abbrev LessFn (α : Type) := List α → Nat → Nat → Bool

/-- The cell `a[i]` of a slice; an index outside the slice, which the sort never
forms, reads a default value. -/
def cell (d : List α) (i : Nat) : α := d.getD i default

/-- The slice cell exchange `a[i], a[j] = a[j], a[i]`. -/
def Swap (d : List α) (i j : Nat) : List α :=
  (d.set i (cell d j)).set j (cell d i)

/-- Inner loop of `insertionSort`: `for j := i; j > a && Less(j, j-1); j--`. -/
def insertionSortInner (less : LessFn α) (a : Nat) : Nat → List α → List α
  | 0, d => d
  | j + 1, d =>
    if a < j + 1 ∧ less d (j + 1) j = true then
      insertionSortInner less a j (Swap d (j + 1) j)
    else d

/-- Go `insertionSort(data, a, b)`: `for i := a + 1; i < b; i++`. -/
def insertionSort (less : LessFn α) (d : List α) (a b : Nat) : List α :=
  (List.range' (a + 1) (b - (a + 1))).foldl (fun d i => insertionSortInner less a i d) d

/-- Loop of `siftDown`, started at `root`; the root index at least doubles each round. -/
def siftDownLoop (less : LessFn α) (hi first : Nat) : Nat → Nat → List α → List α
  | 0, _, d => d
  | fuel + 1, root, d =>
    let child := 2 * root + 1
    if hi ≤ child then d
    else
      let child :=
        if child + 1 < hi ∧ less d (first + child) (first + child + 1) = true
        then child + 1 else child
      if less d (first + root) (first + child) = true then
        siftDownLoop less hi first fuel child (Swap d (first + root) (first + child))
      else d

/-- Go `siftDown(data, lo, hi, first)`. -/
def siftDown (less : LessFn α) (d : List α) (lo hi first : Nat) : List α :=
  siftDownLoop less hi first hi lo d

/-- Go `heapSort(data, a, b)`: build the heap, then pop the greatest element to the end. -/
def heapSort (less : LessFn α) (d : List α) (a b : Nat) : List α :=
  let first := a
  let lo := 0
  let hi := b - a
  let d := (List.range ((hi - 1) / 2 + 1)).reverse.foldl
    (fun d i => siftDown less d i hi first) d
  (List.range hi).reverse.foldl
    (fun d i => siftDown less (Swap d first (first + i)) lo i first) d

/-- The hint `choosePivot` gives `pdqsort`. -/
inductive sortedHint
  | unknownHint
  | increasingHint
  | decreasingHint
  deriving DecidableEq, Repr

/-- Go `(*xorshift).Next` on a 64-bit state. -/
def xorshiftNext (r : Nat) : Nat :=
  let r := r ^^^ ((r <<< 13) % 2 ^ 64)
  let r := r ^^^ (r >>> 7)
  r ^^^ ((r <<< 17) % 2 ^ 64)

/-- Loop of `bitsLen`. -/
def bitsLenLoop : Nat → Nat → Nat
  | 0, _ => 0
  | fuel + 1, n => if n = 0 then 0 else bitsLenLoop fuel (n / 2) + 1

/-- Go `bits.Len(uint(n))`: the number of bits needed to write `n`. -/
def bitsLen (n : Nat) : Nat := bitsLenLoop n n

/-- Go `nextPowerOfTwo(length)`. -/
def nextPowerOfTwo (length : Nat) : Nat := 2 ^ bitsLen length

/-- Go `breakPatterns(data, a, b)`: three exchanges at pseudo-random places. -/
def breakPatterns (d : List α) (a b : Nat) : List α :=
  let length := b - a
  if 8 ≤ length then
    let modulus := nextPowerOfTwo length
    let idx := a + (length / 4) * 2 - 1
    ((List.range 3).foldl
      (fun (s : Nat × List α) i =>
        let random := xorshiftNext s.1
        let other := random &&& (modulus - 1)
        let other := if length ≤ other then other - length else other
        (random, Swap s.2 (idx - 1 + i) (a + other)))
      (length % 2 ^ 64, d)).2
  else d

/-- Go `order2`: the two indices in order, and the count of exchanges so far. -/
def order2 (less : LessFn α) (d : List α) (a b swaps : Nat) : Nat × Nat × Nat :=
  if less d b a = true then (b, a, swaps + 1) else (a, b, swaps)

/-- Go `median`: the index of the median of three cells. -/
def median (less : LessFn α) (d : List α) (a b c swaps : Nat) : Nat × Nat :=
  let r1 := order2 less d a b swaps
  let r2 := order2 less d r1.2.1 c r1.2.2
  let r3 := order2 less d r1.1 r2.1 r2.2.2
  (r3.2.1, r3.2.2)

/-- Go `medianAdjacent`: the median of the cells at `a - 1`, `a`, `a + 1`. -/
def medianAdjacent (less : LessFn α) (d : List α) (a swaps : Nat) : Nat × Nat :=
  median less d (a - 1) a (a + 1) swaps

/-- Go `choosePivot(data, a, b)`. -/
def choosePivot (less : LessFn α) (d : List α) (a b : Nat) : Nat × sortedHint :=
  let l := b - a
  let i := a + l / 4 * 1
  let j := a + l / 4 * 2
  let k := a + l / 4 * 3
  let r :=
    if 8 ≤ l then
      if 50 ≤ l then
        let ri := medianAdjacent less d i 0
        let rj := medianAdjacent less d j ri.2
        let rk := medianAdjacent less d k rj.2
        median less d ri.1 rj.1 rk.1 rk.2
      else median less d i j k 0
    else (j, 0)
  if r.2 = 0 then (r.1, sortedHint.increasingHint)
  else if r.2 = 4 * 3 then (r.1, sortedHint.decreasingHint)
  else (r.1, sortedHint.unknownHint)

/-- Loop of `reverseRange`: `for i < j`. -/
def reverseRangeLoop : Nat → List α → Nat → Nat → List α
  | 0, d, _, _ => d
  | fuel + 1, d, i, j =>
    if i < j then reverseRangeLoop fuel (Swap d i j) (i + 1) (j - 1) else d

/-- Go `reverseRange(data, a, b)`. -/
def reverseRange (d : List α) (a b : Nat) : List α :=
  reverseRangeLoop (b - a) d a (b - 1)

/-- The loop `for i <= j && p(i) { i++ }`, at most `fuel` rounds. -/
def scanUp (p : Nat → Bool) (j : Nat) : Nat → Nat → Nat
  | 0, i => i
  | fuel + 1, i => if i ≤ j ∧ p i = true then scanUp p j fuel (i + 1) else i

/-- The loop `for i <= j && p(j) { j-- }`; every caller has `1 ≤ i`. -/
def scanDown (p : Nat → Bool) (i : Nat) : Nat → Nat
  | 0 => 0
  | j + 1 => if i ≤ j + 1 ∧ p (j + 1) = true then scanDown p i j else j + 1

/-- The `for` loop of `partitionEqual`; the pivot sits at `a`. Returns the data and `i`. -/
def partitionEqualLoop (less : LessFn α) (a : Nat) :
    Nat → List α → Nat → Nat → List α × Nat
  | 0, d, i, _ => (d, i)
  | fuel + 1, d, i, j =>
    let i := scanUp (fun k => !less d a k) j (j + 1 - i) i
    let j := scanDown (fun k => less d a k) i j
    if j < i then (d, i)
    else partitionEqualLoop less a fuel (Swap d i j) (i + 1) (j - 1)

/-- Go `partitionEqual(data, a, b, pivot)`: the data and the new pivot index. -/
def partitionEqual (less : LessFn α) (d : List α) (a b pivot : Nat) : List α × Nat :=
  let d := Swap d a pivot
  partitionEqualLoop less a (b - a) d (a + 1) (b - 1)

/-- The `for` loop of `partition`; the pivot sits at `a`. Returns the data and `j`. -/
def partitionLoop (less : LessFn α) (a : Nat) :
    Nat → List α → Nat → Nat → List α × Nat
  | 0, d, _, j => (d, j)
  | fuel + 1, d, i, j =>
    let i := scanUp (fun k => less d k a) j (j + 1 - i) i
    let j := scanDown (fun k => !less d k a) i j
    if j < i then (d, j)
    else partitionLoop less a fuel (Swap d i j) (i + 1) (j - 1)

/-- Go `partition(data, a, b, pivot)`: the data, the new pivot index, and whether the
slice was already partitioned. -/
def partition (less : LessFn α) (d : List α) (a b pivot : Nat) :
    List α × Nat × Bool :=
  let d := Swap d a pivot
  let i := a + 1
  let j := b - 1
  let i := scanUp (fun k => less d k a) j (j + 1 - i) i
  let j := scanDown (fun k => !less d k a) i j
  if j < i then (Swap d j a, j, true)
  else
    let d := Swap d i j
    let r := partitionLoop less a (b - a) d (i + 1) (j - 1)
    (Swap r.1 r.2 a, r.2, false)

/-- In `partialInsertionSort`: `for j := i - 1; j >= 1; j--`, leaving at the first
pair in order. -/
def shiftLeft (less : LessFn α) : Nat → List α → List α
  | 0, d => d
  | j + 1, d =>
    if less d (j + 1) j = true then shiftLeft less j (Swap d (j + 1) j) else d

/-- In `partialInsertionSort`: `for j := i + 1; j < b; j++`, leaving at the first
pair in order. -/
def shiftRight (less : LessFn α) (b : Nat) : Nat → Nat → List α → List α
  | 0, _, d => d
  | fuel + 1, j, d =>
    if j < b then
      if less d j (j - 1) = true then shiftRight less b fuel (j + 1) (Swap d j (j - 1))
      else d
    else d

/-- The outer loop of `partialInsertionSort`, `steps` rounds left. -/
def partialInsertionSortLoop (less : LessFn α) (a b : Nat) :
    Nat → Nat → List α → List α × Bool
  | 0, _, d => (d, false)
  | steps + 1, i, d =>
    let i := scanUp (fun k => !less d k (k - 1)) (b - 1) (b - i) i
    if i = b then (d, true)
    else if b - a < 50 then (d, false)
    else
      let d := Swap d i (i - 1)
      let d := if 2 ≤ i - a then shiftLeft less (i - 1) d else d
      let d := if 2 ≤ b - i then shiftRight less b (b - (i + 1)) (i + 1) d else d
      partialInsertionSortLoop less a b steps i d

/-- Go `partialInsertionSort(data, a, b)`: the data, and whether it is sorted at the end. -/
def partialInsertionSort (less : LessFn α) (d : List α) (a b : Nat) : List α × Bool :=
  partialInsertionSortLoop less a b 5 (a + 1) d

/-- Go `pdqsort(data, a, b, limit)`. One unit of `fuel` is one round of its `for` loop (a
recursive call starts a loop of its own, with both flags true); each round shortens
`[a, b)`, so `b - a + 1` rounds are never used up. -/
def pdqsort (less : LessFn α) :
    Nat → List α → Nat → Nat → Nat → Bool → Bool → List α
  | 0, d, _, _, _, _, _ => d
  | fuel + 1, d, a, b, limit, wasBalanced, wasPartitioned =>
    let length := b - a
    if length ≤ 12 then insertionSort less d a b
    else if limit = 0 then heapSort less d a b
    else
      let d := if wasBalanced then d else breakPatterns d a b
      let limit := if wasBalanced then limit else limit - 1
      let c := choosePivot less d a b
      let d := if c.2 = sortedHint.decreasingHint then reverseRange d a b else d
      let pivot := if c.2 = sortedHint.decreasingHint then (b - 1) - (c.1 - a) else c.1
      let hint := if c.2 = sortedHint.decreasingHint then sortedHint.increasingHint else c.2
      let r :=
        if wasBalanced = true ∧ wasPartitioned = true ∧ hint = sortedHint.increasingHint
        then partialInsertionSort less d a b else (d, false)
      if r.2 = true then r.1
      else
        let d := r.1
        if 0 < a ∧ less d (a - 1) pivot = false then
          let e := partitionEqual less d a b pivot
          pdqsort less fuel e.1 e.2 b limit wasBalanced wasPartitioned
        else
          let p := partition less d a b pivot
          let mid := p.2.1
          let leftLen := mid - a
          let rightLen := b - mid
          let balanceThreshold := length / 8
          if leftLen < rightLen then
            let d := pdqsort less fuel p.1 a mid limit true true
            pdqsort less fuel d (mid + 1) b limit (decide (balanceThreshold ≤ leftLen)) p.2.2
          else
            let d := pdqsort less fuel p.1 (mid + 1) b limit true true
            pdqsort less fuel d a mid limit (decide (balanceThreshold ≤ rightLen)) p.2.2

/-- Go `sort.Sort(data)`, the slice `data` with comparator `less`. -/
def sort_Sort (less : LessFn α) (d : List α) : List α :=
  let n := d.length
  if n ≤ 1 then d else pdqsort less (n + 1) d 0 n (bitsLen n) true true

end GoSort

/-! ## The program -/

open GoSort

/-- Go `type Urgency string`. -/
abbrev Urgency := String

/-- Go `const Normal Urgency = "normal"`. -/
def Normal : Urgency := "normal"

/-- Go `const Important Urgency = "important"`. -/
def Important : Urgency := "important"

/-- Go `type Event struct`, one row of the calendar file. -/
structure Event where
  Id : Int
  Year : Int
  Month : Int
  Day : Int
  EventName : String
  NotUsedInt : String
  NotUsedString : String
  Urgency : String
  deriving DecidableEq, Inhabited, Repr

/-- Go `type ByDate []*Event`. -/
abbrev ByDate := List Event

/-- Go `func (a ByDate) Len() int`. -/
def ByDate.Len (a : ByDate) : Nat := a.length

/-- Go `func (a ByDate) Swap(i, j int)`. -/
def ByDate.Swap (a : ByDate) (i j : Nat) : ByDate := GoSort.Swap a i j

/-- Go `func (a ByDate) Less(i, j int) bool`. -/
def ByDate.Less (a : ByDate) (i j : Nat) : Bool :=
  if (cell a i).Year ≠ (cell a j).Year then decide ((cell a i).Year > (cell a j).Year)
  else if (cell a i).Month ≠ (cell a j).Month then decide ((cell a i).Month > (cell a j).Month)
  else decide ((cell a i).Day > (cell a j).Day)

/-- An operand of `fmt.Sprintf`. -/
inductive FmtArg
  | int (n : Int)
  | str (s : String)

/-- The verb `%d` on an `int`: decimal digits, a minus sign before a negative number. -/
def fmtInt : Int → String
  | Int.ofNat m => String.mk (Nat.toDigits 10 m)
  | Int.negSucc m => String.mk ('-' :: Nat.toDigits 10 (m + 1))

/-- Go `fmt.Sprintf` on the characters of the format: `%d` and `%s` take the next
operand, every other character is copied. An operand is written out, never read as a
format. -/
def SprintfChars : List Char → List FmtArg → List Char
  | [], _ => []
  | '%' :: 'd' :: rest, FmtArg.int n :: args => (fmtInt n).data ++ SprintfChars rest args
  | '%' :: 's' :: rest, FmtArg.str s :: args => s.data ++ SprintfChars rest args
  | c :: rest, args => c :: SprintfChars rest args

/-- Go `fmt.Sprintf(format, args...)` for the verbs `%d` and `%s`. -/
def Sprintf (format : String) (args : List FmtArg) : String :=
  String.mk (SprintfChars format.data args)

/-- The fixed head of the document: the first value of `htmlContent` in `createHtml`. -/
def htmlHead : String :=
  String.intercalate "\n" [
    "<!DOCTYPE html>",
    "<html lang=\"es\">",
    "<head>",
    "    <meta charset=\"UTF-8\">",
    "    <meta name=\"viewport\" content=\"width=device-width, initial-scale=1.0\">",
    "    <title>Eingehende Ereignisse</title>",
    "    <style>",
    "        body \x7b",
    "            font-family: \x27Helvetica Neue\x27, Arial, sans-serif;",
    "            line-height: 1.6;",
    "            color: #333;",
    "            max-width: 650px;",
    "            margin: 0 auto;",
    "            padding: 20px;",
    "            background-color: #f9f9f9;",
    "        \x7d",
    "        .header \x7b",
    "            text-align: center;",
    "            margin-bottom: 30px;",
    "            padding-bottom: 20px;",
    "            border-bottom: 1px solid #eaeaea;",
    "        \x7d",
    "        .header h1 \x7b",
    "            font-weight: 300;",
    "            color: #2c3e50;",
    "            margin-bottom: 5px;",
    "        \x7d",
    "        .header p \x7b",
    "            color: #7f8c8d;",
    "            margin-top: 0;",
    "        \x7d",
    "        .event \x7b",
    "            background: white;",
    "            padding: 20px;",
    "            margin-bottom: 15px;",
    "            border-radius: 4px;",
    "            box-shadow: 0 2px 4px rgba(0,0,0,0.05);",
    "            transition: all 0.3s ease;",
    "        \x7d",
    "        .event:hover \x7b",
    "            box-shadow: 0 5px 15px rgba(0,0,0,0.1);",
    "        \x7d",
    "        .event-date \x7b",
    "            font-size: 14px;",
    "            color: #7f8c8d;",
    "            margin-bottom: 5px;",
    "        \x7d",
    "        .event-name \x7b",
    "            font-size: 18px;",
    "            font-weight: 500;",
    "            color: #2c3e50;",
    "            margin: 0 0 10px 0;",
    "        \x7d",
    "        .event-urgency \x7b",
    "            display: inline-block;",
    "            padding: 3px 8px;",
    "            font-size: 12px;",
    "            border-radius: 3px;",
    "            text-transform: uppercase;",
    "            letter-spacing: 0.5px;",
    "        \x7d",
    "        .normal \x7b",
    "            background-color: #ecf0f1;",
    "            color: #7f8c8d;",
    "        \x7d",
    "        .important \x7b",
    "            background-color: #ffeaa7;",
    "            color: #e17055;",
    "        \x7d",
    "    </style>",
    "</head>",
    "<body>",
    "    <div class=\"header\">",
    "        <h1>Kommende Veranstaltungen</h1>",
    "        <p>Dies sind Ihre wichtigsten Veranstaltungen für heute</p>",
    "    </div>"]

/-- The format of one event block in `createHtml`. -/
def eventFormat : String :=
  String.intercalate "\n" [
    "",
    "    <div class=\"event\">",
    "        <div class=\"event-date\">%d/%d/%d</div>",
    "        <h2 class=\"event-name\">%s</h2>",
    "        <span class=\"event-urgency %s\">%s</span>",
    "    </div>"]

/-- The closing lines `createHtml` appends after the loop. -/
def htmlTail : String :=
  String.intercalate "\n" ["", "</body>", "</html>"]

/-- The variable `urgencyClass` in the loop of `createHtml`. -/
def urgencyClass (event : Event) : String :=
  if event.Urgency = "important" then "important" else "normal"

/-- The variable `urgencyText` in the loop of `createHtml`. -/
def urgencyText (event : Event) : String :=
  if event.Urgency = "important" then "Wichtig" else "Normal"

/-- The block the loop of `createHtml` appends for one event. -/
def eventBlock (event : Event) : String :=
  Sprintf eventFormat
    [FmtArg.int event.Day, FmtArg.int event.Month, FmtArg.int event.Year,
     FmtArg.str event.EventName, FmtArg.str (urgencyClass event),
     FmtArg.str (urgencyText event)]

/-- The sort step of `createHtml`: `sort.Sort(ByDate(events))`. -/
def sortEvents (events : List Event) : List Event := sort_Sort ByDate.Less events

/-- Go `func createHtml(events []*Event) string`. -/
def createHtml (events : List Event) : String :=
  let events := sortEvents events
  let htmlContent := htmlHead
  let htmlContent := events.foldl (fun htmlContent event => htmlContent ++ eventBlock event)
    htmlContent
  htmlContent ++ htmlTail

/-- Go `resend.SendEmailRequest`, the fields `sendEmail` fills in. -/
structure SendEmailRequest where
  To : List String
  From : String
  Html : String
  Subject : String
  deriving DecidableEq, Repr

/-- What a run of the program meets outside of it: the results of the library and
system calls of `main.go`. -/
structure World where
  /-- Result of `godotenv.Load()`: the variables of the file `.env`, `none` for an error. -/
  dotenv : Option (List (String × String))
  /-- The environment the process starts with. -/
  environ : List (String × String)
  /-- Result of `os.UserHomeDir()`, `none` for an error. -/
  userHomeDir : Option String
  /-- Result of `os.ReadFile(path)`, `none` for an error. -/
  osReadFile : String → Option String
  /-- Whether `os.WriteFile(path, content, 0644)` succeeds. -/
  osWriteFile : String → String → Bool
  /-- Result of `os.OpenFile` and `gocsv.UnmarshalFile` on the working file, given what
  was written to it; `none` when either fails. -/
  unmarshalFile : String → Option (List Event)
  /-- Answer of the provider to `client.Emails.Send(request)` for a client made with the
  given key: the message identifier, `none` for an error. -/
  emailsSend : String → SendEmailRequest → Option String

/-- What a run does that can be seen from outside. -/
structure Run where
  /-- The calls of `client.Emails.Send`, each with the key of its client. -/
  sends : List (String × SendEmailRequest)
  /-- The lines printed by `fmt.Println`. -/
  printed : List String
  /-- Whether the run ended in `panic`. -/
  panicked : Bool
  deriving DecidableEq, Repr

/-- Go `os.Getenv(key)` once `godotenv.Load()` has succeeded: a variable of the process
environment, else a variable of `.env` (loading does not override), else the empty
string. -/
def Getenv (w : World) (key : String) : String :=
  match w.environ.lookup key with
  | some v => v
  | none =>
    match (w.dotenv.getD []).lookup key with
    | some v => v
    | none => ""

/-- Go `func createFile()`: the content written to `./events.csv`, `none` for a panic. -/
def createFile (w : World) : Option String :=
  let csvHeaders := "Id,Year,Month,Day,EventName,NotUsedInt,NotUsedString,Urgency\n"
  match w.userHomeDir with
  | none => none
  | some homeDir =>
    let fileLocation := homeDir ++ "/.config/calcure/events.csv"
    let newFileLocation := "./events.csv"
    match w.osReadFile fileLocation with
    | none => none
    | some bytesRead =>
      let fullContent := csvHeaders ++ bytesRead
      if w.osWriteFile newFileLocation fullContent = true then some fullContent else none

/-- Go `func readFile() []*Event`, reading the working file with the given content;
`none` for a panic. -/
def readFile (w : World) (content : String) : Option (List Event) :=
  w.unmarshalFile content

/-- Go `func sendEmail(eventsHtml string)`. -/
def sendEmail (w : World) (eventsHtml : String) : Run :=
  let API_KEY := Getenv w "API_KEY"
  let EMAIL := Getenv w "EMAIL"
  let emailParams : SendEmailRequest :=
    { To := [EMAIL], From := "remainders@carlinux.me", Html := eventsHtml,
      Subject := "Daily reminder :)" }
  match w.emailsSend API_KEY emailParams with
  | none => { sends := [(API_KEY, emailParams)], printed := [], panicked := true }
  | some id => { sends := [(API_KEY, emailParams)], printed := [id], panicked := false }

/-- Go `func main()`. -/
def main (w : World) : Run :=
  match w.dotenv with
  | none => { sends := [], printed := [], panicked := true }
  | some _ =>
    match createFile w with
    | none => { sends := [], printed := [], panicked := true }
    | some content =>
      match readFile w content with
      | none => { sends := [], printed := [], panicked := true }
      | some events =>
        let text := createHtml events
        sendEmail w text

/-! ## Vocabulary of the statements -/

/-- The date of `x` is strictly later than the date of `y`: the year decides, then the
month, then the day. -/
def Event.laterThan (x y : Event) : Prop :=
  x.Year > y.Year ∨ (x.Year = y.Year ∧ (x.Month > y.Month ∨ (x.Month = y.Month ∧ x.Day > y.Day)))

/-- The events `x` and `y` have the same year, month and day. -/
def Event.sameDate (x y : Event) : Prop :=
  x.Year = y.Year ∧ x.Month = y.Month ∧ x.Day = y.Day

/-- The date of `x` is later than the date of `y`, or the same. -/
def Event.notEarlierThan (x y : Event) : Prop :=
  Event.laterThan x y ∨ Event.sameDate x y

instance (x y : Event) : Decidable (Event.laterThan x y) :=
  inferInstanceAs (Decidable (x.Year > y.Year ∨
    (x.Year = y.Year ∧ (x.Month > y.Month ∨ (x.Month = y.Month ∧ x.Day > y.Day)))))

instance (x y : Event) : Decidable (Event.sameDate x y) :=
  inferInstanceAs (Decidable (x.Year = y.Year ∧ x.Month = y.Month ∧ x.Day = y.Day))

instance (x y : Event) : Decidable (Event.notEarlierThan x y) :=
  inferInstanceAs (Decidable (Event.laterThan x y ∨ Event.sameDate x y))

/-- The rank `ByDate.Less` sorts by: the negated date in lexicographic order, so that a
later date ranks lower and comes first. -/
def dateRank (e : Event) : Int ×ₗ Int ×ₗ Int :=
  toLex (-e.Year, toLex (-e.Month, -e.Day))

/-- The API key is set neither in the process environment nor in `.env`. -/
def apiKeyMissing (w : World) : Prop :=
  w.environ.lookup "API_KEY" = none ∧ (w.dotenv.getD []).lookup "API_KEY" = none

/-- The steps of `main` before `sendEmail` all succeed and read the events `events`. -/
def reachesSend (w : World) (events : List Event) : Prop :=
  w.dotenv.isSome = true ∧ ∃ content, createFile w = some content ∧ readFile w content = some events

/-! ## Inputs of the worked examples -/

/-- The row `0,2025,8,1,"Going for a matcha",1,once,normal`. -/
def matchaEvent : Event :=
  { Id := 0, Year := 2025, Month := 8, Day := 1, EventName := "Going for a matcha",
    NotUsedInt := "1", NotUsedString := "once", Urgency := "normal" }

/-- An important event on 2025-08-02 whose name holds HTML and format characters. -/
def markupEvent : Event :=
  { Id := 1, Year := 2025, Month := 8, Day := 2, EventName := "<b>50% & \"x\"</b> %d %s",
    NotUsedInt := "1", NotUsedString := "once", Urgency := "important" }

/-- A second event on 2025-08-01, with another id and name. -/
def teaEvent : Event :=
  { Id := 2, Year := 2025, Month := 8, Day := 1, EventName := "Tea", NotUsedInt := "1",
    NotUsedString := "once", Urgency := "urgent" }

/-- An event of the year before. -/
def oldEvent : Event :=
  { Id := 3, Year := 2024, Month := 12, Day := 31, EventName := "Eve", NotUsedInt := "1",
    NotUsedString := "once", Urgency := "" }

/-- A run where `.env` loads and sets only `EMAIL`, the files are there, the working file
holds no event, and the provider answers every request. -/
def worldNoKey : World :=
  { dotenv := some [("EMAIL", "me@example.org")]
    environ := []
    userHomeDir := some "/home/me"
    osReadFile := fun _ => some ""
    osWriteFile := fun _ _ => true
    unmarshalFile := fun _ => some []
    emailsSend := fun _ _ => some "id-1" }

namespace GoSort

variable {α : Type} [Inhabited α] {β : Type} [LinearOrder β]

/-- The slice `d'` is `d` after finitely many exchanges of cells of `[a, b)`. -/
inductive RangePerm (a b : Nat) : List α → List α → Prop
  | refl (d : List α) : RangePerm a b d d
  | step (d d' : List α) (i j : Nat) : RangePerm a b d d' → a ≤ i → i < b → a ≤ j → j < b →
      b ≤ d'.length → RangePerm a b d (Swap d' i j)

/-- The cells of `[a, b)` are in non-decreasing order of `rank`. -/
def SortedOn (rank : α → β) (d : List α) (a b : Nat) : Prop :=
  ∀ i j, a ≤ i → i ≤ j → j < b → rank (cell d i) ≤ rank (cell d j)

/-- The comparator `less` is the strict order of `rank` on the cells. -/
def LessBy (rank : α → β) (less : LessFn α) : Prop :=
  ∀ d i j, less d i j = true ↔ rank (cell d i) < rank (cell d j)

/-- The cell just before `[a, b)`, when there is one, is no greater than any cell of
`[a, b)`. -/
def LowerBound (rank : α → β) (d : List α) (a b : Nat) : Prop :=
  0 < a → ∀ k, a ≤ k → k < b → rank (cell d (a - 1)) ≤ rank (cell d k)

/-- In the heap laid out from cell `first`, every parent at relative index `lo` or more
is no smaller than its children below `hi`. -/
def HeapFrom (rank : α → β) (d : List α) (first lo hi : Nat) : Prop :=
  ∀ p c, lo ≤ p → c < hi → (c = 2 * p + 1 ∨ c = 2 * p + 2) →
    rank (cell d (first + c)) ≤ rank (cell d (first + p))

end GoSort

end Calcxporter

/-! ## Proofs -/

namespace Calcxporter
namespace GoSort

variable {α : Type} [Inhabited α] {β : Type} [LinearOrder β]

theorem length_Swap (d : List α) (i j : Nat) : (Swap d i j).length = d.length := by
  simp [Swap]

theorem cell_eq_getElem (d : List α) (k : Nat) (h : k < d.length) : cell d k = d[k] := by
  simp [cell, List.getD_eq_getElem?_getD, List.getElem?_eq_getElem h]

theorem cell_Swap (d : List α) (i j k : Nat) (hi : i < d.length) (hj : j < d.length) :
    cell (Swap d i j) k = if k = j then cell d i else if k = i then cell d j else cell d k := by
  unfold Swap cell
  simp only [List.getD_eq_getElem?_getD, List.getElem?_set, List.length_set]
  by_cases h1 : j = k
  · subst h1; simp [hj]
  · by_cases h2 : i = k
    · subst h2; simp [h1, hi, Ne.symm h1]
    · simp [h1, h2, Ne.symm h1, Ne.symm h2]

theorem list_eq_map_cell (d : List α) : d = (List.range d.length).map (cell d) := by
  apply List.ext_getElem
  · simp
  · intro n h1 h2
    simp [cell_eq_getElem d n h1]

theorem list_ext_cell (d d' : List α) (hlen : d'.length = d.length)
    (h : ∀ k, k < d.length → cell d' k = cell d k) : d' = d := by
  rw [list_eq_map_cell d, list_eq_map_cell d', hlen]
  apply List.map_congr_left
  intro k hk
  exact h k (by simpa using hk)

theorem Swap_perm (d : List α) (i j : Nat) (hi : i < d.length) (hj : j < d.length) :
    (Swap d i j).Perm d := by
  have h1 : Swap d i j = ((List.range d.length).map (Equiv.swap i j)).map (cell d) := by
    conv_lhs => rw [list_eq_map_cell (Swap d i j), length_Swap]
    rw [List.map_map]
    apply List.map_congr_left
    intro k _
    simp only [Function.comp, cell_Swap d i j k hi hj, Equiv.swap_apply_def]
    by_cases h1 : k = j
    · subst h1; by_cases h2 : k = i
      · subst h2; simp
      · simp [h2]
    · by_cases h2 : k = i
      · subst h2; simp [h1]
      · simp [h1, h2]
  have h2 : ((List.range d.length).map (Equiv.swap i j)).Perm (List.range d.length) := by
    rw [List.perm_ext_iff_of_nodup]
    · intro k
      simp only [List.mem_map, List.mem_range]
      constructor
      · rintro ⟨x, hx, rfl⟩
        rw [Equiv.swap_apply_def]
        split_ifs <;> assumption
      · intro hk
        refine ⟨Equiv.swap i j k, ?_, by simp⟩
        rw [Equiv.swap_apply_def]
        split_ifs <;> assumption
    · exact (List.nodup_range _).map (Equiv.swap i j).injective
    · exact List.nodup_range _
  rw [h1]
  conv_rhs => rw [list_eq_map_cell d]
  exact h2.map _

theorem RangePerm.length_eq {a b : Nat} {d d' : List α} (h : RangePerm a b d d') :
    d'.length = d.length := by
  induction h with
  | refl => rfl
  | step d' i j _ _ _ _ _ _ ih => rw [length_Swap, ih]

theorem RangePerm.trans {a b : Nat} {d d' d'' : List α} (h1 : RangePerm a b d d')
    (h2 : RangePerm a b d' d'') : RangePerm a b d d'' := by
  induction h2 with
  | refl => exact h1
  | step e i j _ hi1 hi2 hj1 hj2 hb ih => exact RangePerm.step _ e i j ih hi1 hi2 hj1 hj2 hb

theorem RangePerm.swap {a b : Nat} (d : List α) (i j : Nat) (hi1 : a ≤ i) (hi2 : i < b)
    (hj1 : a ≤ j) (hj2 : j < b) (hb : b ≤ d.length) : RangePerm a b d (Swap d i j) :=
  RangePerm.step d d i j (RangePerm.refl d) hi1 hi2 hj1 hj2 hb

theorem RangePerm.mono {a b a' b' : Nat} {d d' : List α} (h : RangePerm a b d d')
    (ha : a' ≤ a) (hb : b ≤ b') (hlen : b' ≤ d.length) : RangePerm a' b' d d' := by
  induction h with
  | refl => exact RangePerm.refl _
  | step e i j h0 hi1 hi2 hj1 hj2 _ ih =>
    exact RangePerm.step _ e i j ih (by omega) (by omega) (by omega) (by omega)
      (by rw [h0.length_eq]; exact hlen)

theorem RangePerm.perm {a b : Nat} {d d' : List α} (h : RangePerm a b d d') : d'.Perm d := by
  induction h with
  | refl => exact List.Perm.refl _
  | step e i j _ _ hi2 _ hj2 hb ih =>
    exact (Swap_perm e i j (by omega) (by omega)).trans ih

theorem RangePerm.outside {a b : Nat} {d d' : List α} (h : RangePerm a b d d') (k : Nat)
    (hk : k < a ∨ b ≤ k) : cell d' k = cell d k := by
  induction h with
  | refl => rfl
  | step e i j _ _ hi2 _ hj2 hb ih =>
    rw [cell_Swap e i j k (by omega) (by omega), if_neg (by omega), if_neg (by omega), ih]

theorem RangePerm.inside {a b : Nat} {d d' : List α} (h : RangePerm a b d d') (k : Nat)
    (hk1 : a ≤ k) (hk2 : k < b) : ∃ k', a ≤ k' ∧ k' < b ∧ cell d' k = cell d k' := by
  induction h generalizing k with
  | refl => exact ⟨k, hk1, hk2, rfl⟩
  | step e i j _ hi1 hi2 hj1 hj2 hb ih =>
    rw [cell_Swap e i j k (by omega) (by omega)]
    split_ifs
    · exact ih i hi1 hi2
    · exact ih j hj1 hj2
    · exact ih k hk1 hk2

theorem RangePerm.inside_rev {a b : Nat} {d d' : List α} (h : RangePerm a b d d') (k : Nat)
    (hk1 : a ≤ k) (hk2 : k < b) : ∃ k', a ≤ k' ∧ k' < b ∧ cell d k = cell d' k' := by
  induction h generalizing k with
  | refl => exact ⟨k, hk1, hk2, rfl⟩
  | step e i j _ hi1 hi2 hj1 hj2 hb ih =>
    obtain ⟨k', h1, h2, h3⟩ := ih k hk1 hk2
    by_cases hki : k' = i
    · refine ⟨j, hj1, hj2, ?_⟩
      rw [cell_Swap e i j j (by omega) (by omega), if_pos rfl, h3, hki]
    · by_cases hkj : k' = j
      · refine ⟨i, hi1, hi2, ?_⟩
        rw [cell_Swap e i j i (by omega) (by omega), h3, hkj]
        by_cases h : i = j
        · simp [h]
        · simp [h]
      · refine ⟨k', h1, h2, ?_⟩
        rw [cell_Swap e i j k' (by omega) (by omega), if_neg hkj, if_neg hki, h3]

theorem RangePerm.forall_in {a b : Nat} {d d' : List α} (h : RangePerm a b d d')
    (P : α → Prop) (hP : ∀ k, a ≤ k → k < b → P (cell d k)) :
    ∀ k, a ≤ k → k < b → P (cell d' k) := by
  intro k hk1 hk2
  obtain ⟨k', h1, h2, h3⟩ := h.inside k hk1 hk2
  rw [h3]
  exact hP k' h1 h2


theorem insertionSortInner_spec (rank : α → β) (less : LessFn α) (hL : LessBy rank less)
    (a i : Nat) : ∀ (j : Nat) (d : List α), a ≤ j → j ≤ i → i < d.length →
    (∀ p q, a ≤ p → p ≤ q → q ≤ i → p ≠ j → q ≠ j → rank (cell d p) ≤ rank (cell d q)) →
    (∀ q, j < q → q ≤ i → rank (cell d j) ≤ rank (cell d q)) →
    RangePerm a (i + 1) d (insertionSortInner less a j d) ∧
      SortedOn rank (insertionSortInner less a j d) a (i + 1) := by
  intro j
  induction j with
  | zero =>
    intro d _ _ _ H1 H2
    refine ⟨RangePerm.refl _, ?_⟩
    intro p q hp hpq hq
    simp only [insertionSortInner]
    by_cases hp0 : p = 0
    · by_cases hq0 : q = 0
      · rw [hp0, hq0]
      · rw [hp0]; exact H2 q (by omega) (by omega)
    · exact H1 p q hp hpq (by omega) hp0 (by omega)
  | succ j ih =>
    intro d haj hji hid H1 H2
    simp only [insertionSortInner]
    split_ifs with hc
    · obtain ⟨hc1, hc2⟩ := hc
      rw [hL] at hc2
      have hsw := fun k => cell_Swap d (j + 1) j k (by omega) (by omega)
      have := ih (Swap d (j + 1) j) (by omega) (by omega) (by rw [length_Swap]; exact hid)
        (by
          intro p q hp hpq hq hpj hqj
          rw [hsw, hsw, if_neg hpj, if_neg hqj]
          by_cases h1 : p = j + 1
          · rw [if_pos h1]
            by_cases h2 : q = j + 1
            · rw [if_pos h2]
            · rw [if_neg h2]
              exact H1 j q (by omega) (by omega) hq (by omega) h2
          · rw [if_neg h1]
            by_cases h2 : q = j + 1
            · rw [if_pos h2]
              exact H1 p j hp (by omega) (by omega) h1 (by omega)
            · rw [if_neg h2]
              exact H1 p q hp hpq hq h1 h2)
        (by
          intro q hq1 hq2
          rw [hsw, hsw, if_pos rfl]
          by_cases h2 : q = j + 1
          · rw [if_neg (by omega), if_pos h2]; exact le_of_lt hc2
          · rw [if_neg (by omega), if_neg h2]; exact H2 q (by omega) hq2)
      exact ⟨(RangePerm.swap d (j + 1) j (by omega) (by omega) (by omega) (by omega)
        (by omega)).trans this.1, this.2⟩
    · refine ⟨RangePerm.refl _, ?_⟩
      have hc' : a = j + 1 ∨ rank (cell d j) ≤ rank (cell d (j + 1)) := by
        by_cases h : a < j + 1
        · right
          have : ¬ less d (j + 1) j = true := fun h' => hc ⟨h, h'⟩
          rw [hL] at this
          exact not_lt.mp this
        · left; omega
      intro p q hp hpq hq
      by_cases h1 : p = j + 1
      · by_cases h2 : q = j + 1
        · rw [h1, h2]
        · rw [h1]; exact H2 q (by omega) (by omega)
      · by_cases h2 : q = j + 1
        · rcases hc' with h | h
          · omega
          · rw [h2]
            by_cases h3 : p = j
            · rw [h3]; exact h
            · exact le_trans (H1 p j hp (by omega) (by omega) h1 (by omega)) h
        · exact H1 p q hp hpq (by omega) h1 h2

theorem insertionSort_fold_spec (rank : α → β) (less : LessFn α) (hL : LessBy rank less)
    (a : Nat) : ∀ (n i : Nat) (d : List α), a < i → i + n ≤ d.length → SortedOn rank d a i →
    RangePerm a (i + n) d
        ((List.range' i n).foldl (fun d i => insertionSortInner less a i d) d) ∧
      SortedOn rank
        ((List.range' i n).foldl (fun d i => insertionSortInner less a i d) d) a (i + n) := by
  intro n
  induction n with
  | zero => intro i d _ _ hs; exact ⟨RangePerm.refl _, hs⟩
  | succ n ih =>
    intro i d hai hlen hs
    simp only [List.range', List.foldl_cons]
    have h1 := insertionSortInner_spec rank less hL a i i d (by omega) le_rfl (by omega)
      (fun p q hp hpq hq _ hqi => hs p q hp hpq (by omega)) (fun q h1 h2 => by omega)
    have h2 := ih (i + 1) (insertionSortInner less a i d) (by omega)
      (by rw [h1.1.length_eq]; omega) h1.2
    have e : i + 1 + n = i + (n + 1) := by omega
    rw [e] at h2
    exact ⟨(h1.1.mono le_rfl (by omega) (by omega)).trans h2.1, h2.2⟩

theorem insertionSort_spec (rank : α → β) (less : LessFn α) (hL : LessBy rank less)
    (d : List α) (a b : Nat) (hb : b ≤ d.length) :
    RangePerm a b d (insertionSort less d a b) ∧ SortedOn rank (insertionSort less d a b) a b := by
  unfold insertionSort
  by_cases h : a + 1 ≤ b
  · have := insertionSort_fold_spec rank less hL a (b - (a + 1)) (a + 1) d (by omega) (by omega)
      (by intro i j h1 h2 h3; have : i = j := by omega
          rw [this])
    have e : a + 1 + (b - (a + 1)) = b := by omega
    rw [e] at this
    exact this
  · have e : b - (a + 1) = 0 := by omega
    rw [e]
    refine ⟨RangePerm.refl _, ?_⟩
    intro i j h1 h2 h3
    omega

theorem insertionSortInner_sorted (rank : α → β) (less : LessFn α) (hL : LessBy rank less)
    (a j : Nat) (d : List α) (h : a < j → rank (cell d (j - 1)) ≤ rank (cell d j)) :
    insertionSortInner less a j d = d := by
  cases j with
  | zero => rfl
  | succ j =>
    simp only [insertionSortInner]
    rw [if_neg]
    rintro ⟨h1, h2⟩
    rw [hL] at h2
    exact absurd (h h1) (not_le.mpr h2)

theorem insertionSort_sorted (rank : α → β) (less : LessFn α) (hL : LessBy rank less)
    (d : List α) (a b : Nat) (hs : SortedOn rank d a b) : insertionSort less d a b = d := by
  unfold insertionSort
  have : ∀ (n i : Nat), a < i → i + n ≤ b →
      (List.range' i n).foldl (fun d i => insertionSortInner less a i d) d = d := by
    intro n
    induction n with
    | zero => intro _ _ _; rfl
    | succ n ih =>
      intro i hai hin
      simp only [List.range', List.foldl_cons]
      rw [insertionSortInner_sorted rank less hL a i d
        (fun _ => hs (i - 1) i (by omega) (by omega) (by omega))]
      exact ih (i + 1) (by omega) (by omega)
  by_cases h : a + 1 ≤ b
  · exact this _ _ (by omega) (by omega)
  · have e : b - (a + 1) = 0 := by omega
    rw [e]; rfl


theorem LessBy.lt {rank : α → β} {less : LessFn α} (hL : LessBy rank less) (d : List α)
    (i j : Nat) : less d i j = true ↔ rank (cell d i) < rank (cell d j) := hL d i j

theorem LessBy.ge {rank : α → β} {less : LessFn α} (hL : LessBy rank less) (d : List α)
    (i j : Nat) : less d i j = false ↔ rank (cell d j) ≤ rank (cell d i) := by
  rw [← not_lt, ← hL d i j]; simp

theorem LessBy.not_lt {rank : α → β} {less : LessFn α} (hL : LessBy rank less) (d : List α)
    (i j : Nat) : (!less d i j) = true ↔ rank (cell d j) ≤ rank (cell d i) := by
  rw [← hL.ge]; simp

theorem LessBy.not_ge {rank : α → β} {less : LessFn α} (hL : LessBy rank less) (d : List α)
    (i j : Nat) : (!less d i j) = false ↔ rank (cell d i) < rank (cell d j) := by
  rw [← hL.lt]; simp

theorem scanUp_spec (p : Nat → Bool) (j : Nat) : ∀ (fuel i : Nat), j + 1 - i ≤ fuel →
    i ≤ scanUp p j fuel i ∧ (i ≤ j + 1 → scanUp p j fuel i ≤ j + 1) ∧
      (∀ k, i ≤ k → k < scanUp p j fuel i → p k = true) ∧
      (scanUp p j fuel i ≤ j → p (scanUp p j fuel i) = false) := by
  intro fuel
  induction fuel with
  | zero =>
    intro i h
    simp only [scanUp]
    exact ⟨le_rfl, fun h => h, fun k h1 h2 => by omega, fun h' => by omega⟩
  | succ fuel ih =>
    intro i h
    simp only [scanUp]
    split_ifs with hc
    · obtain ⟨h1, h2, h3, h4⟩ := ih (i + 1) (by omega)
      refine ⟨by omega, fun _ => h2 (by omega), ?_, h4⟩
      intro k hk1 hk2
      by_cases hki : k = i
      · rw [hki]; exact hc.2
      · exact h3 k (by omega) hk2
    · refine ⟨le_rfl, fun h => h, fun k h1 h2 => by omega, fun h' => ?_⟩
      by_contra hp
      exact hc ⟨h', by simpa using hp⟩

theorem scanDown_spec (p : Nat → Bool) (i : Nat) (hi : 1 ≤ i) : ∀ (j : Nat),
    scanDown p i j ≤ j ∧ (i ≤ j + 1 → i ≤ scanDown p i j + 1) ∧
      (∀ k, scanDown p i j < k → k ≤ j → p k = true) ∧
      (i ≤ scanDown p i j → p (scanDown p i j) = false) := by
  intro j
  induction j with
  | zero =>
    simp only [scanDown]
    exact ⟨le_rfl, fun h => h, fun k h1 h2 => by omega, fun h' => by omega⟩
  | succ j ih =>
    simp only [scanDown]
    split_ifs with hc
    · obtain ⟨h1, h2, h3, h4⟩ := ih
      refine ⟨by omega, fun _ => h2 (by omega), ?_, h4⟩
      intro k hk1 hk2
      by_cases hkj : k = j + 1
      · rw [hkj]; exact hc.2
      · exact h3 k hk1 (by omega)
    · refine ⟨le_rfl, fun h => h, fun k h1 h2 => by omega, fun h' => ?_⟩
      by_contra hp
      exact hc ⟨h', by simpa using hp⟩

theorem partitionLoop_spec (rank : α → β) (less : LessFn α) (hL : LessBy rank less)
    (pv : β) (a b : Nat) : ∀ (fuel : Nat) (d : List α) (i j : Nat), j + 1 - i ≤ fuel →
    a + 1 ≤ i → i ≤ j + 1 → j < b → b ≤ d.length → rank (cell d a) = pv →
    (∀ k, a + 1 ≤ k → k < i → rank (cell d k) < pv) →
    (∀ k, j < k → k < b → pv ≤ rank (cell d k)) →
    RangePerm (a + 1) b d (partitionLoop less a fuel d i j).1 ∧
      a ≤ (partitionLoop less a fuel d i j).2 ∧ (partitionLoop less a fuel d i j).2 < b ∧
      (∀ k, a + 1 ≤ k → k ≤ (partitionLoop less a fuel d i j).2 →
        rank (cell (partitionLoop less a fuel d i j).1 k) < pv) ∧
      (∀ k, (partitionLoop less a fuel d i j).2 < k → k < b →
        pv ≤ rank (cell (partitionLoop less a fuel d i j).1 k)) := by
  intro fuel
  induction fuel with
  | zero =>
    intro d i j hf hai hij hjb hlen hpv Hl Hr
    simp only [partitionLoop]
    exact ⟨RangePerm.refl _, by omega, hjb, fun k h1 h2 => Hl k h1 (by omega), Hr⟩
  | succ fuel ih =>
    intro d i j hf hai hij hjb hlen hpv Hl Hr
    simp only [partitionLoop]
    obtain ⟨u1, u2, u3, u4⟩ := scanUp_spec (fun k => less d k a) j (j + 1 - i) i le_rfl
    generalize scanUp (fun k => less d k a) j (j + 1 - i) i = i' at u1 u2 u3 u4 ⊢
    obtain ⟨v1, v2, v3, v4⟩ := scanDown_spec (fun k => !less d k a) i' (by omega) j
    generalize scanDown (fun k => !less d k a) i' j = j' at v1 v2 v3 v4 ⊢
    have u2 := u2 hij
    have v2 := v2 u2
    have Hl' : ∀ k, a + 1 ≤ k → k < i' → rank (cell d k) < pv := by
      intro k h1 h2
      by_cases h : k < i
      · exact Hl k h1 h
      · have := u3 k (by omega) h2
        rw [hL, hpv] at this
        exact this
    have Hr' : ∀ k, j' < k → k < b → pv ≤ rank (cell d k) := by
      intro k h1 h2
      by_cases h : j < k
      · exact Hr k h h2
      · have := v3 k h1 (by omega)
        simp only [hL.not_lt, hpv] at this
        exact this
    split_ifs with hc
    · exact ⟨RangePerm.refl _, by omega, by omega, fun k h1 h2 => Hl' k h1 (by omega), Hr'⟩
    · have hi'j : i' ≤ j := by omega
      have w1 := u4 hi'j
      have w2 := v4 (by omega)
      simp only [hL.ge, hpv] at w1
      simp only [hL.not_ge, hpv] at w2
      have hne : i' ≠ j' := by
        intro h
        rw [h] at w1
        exact absurd w2 (not_lt.mpr w1)
      have hsw := fun k => cell_Swap d i' j' k (by omega) (by omega)
      obtain ⟨r1, r2, r3, r4, r5⟩ := ih (Swap d i' j') (i' + 1) (j' - 1) (by omega) (by omega)
        (by omega) (by omega) (by rw [length_Swap]; exact hlen)
        (by rw [hsw, if_neg (by omega), if_neg (by omega)]; exact hpv)
        (by
          intro k h1 h2
          rw [hsw]
          by_cases hk : k = i'
          · rw [if_neg (by omega), if_pos hk]; exact w2
          · rw [if_neg (by omega), if_neg hk]; exact Hl' k h1 (by omega))
        (by
          intro k h1 h2
          rw [hsw]
          by_cases hk : k = j'
          · rw [if_pos hk]; exact w1
          · rw [if_neg hk, if_neg (by omega)]; exact Hr' k (by omega) h2)
      exact ⟨(RangePerm.swap d i' j' (by omega) (by omega) (by omega) (by omega) hlen).trans r1,
        r2, r3, r4, r5⟩

theorem pivot_swap_spec (rank : α → β) (d : List α) (a b j : Nat) (haj : a ≤ j) (hjb : j < b)
    (hlen : b ≤ d.length)
    (Hl : ∀ k, a + 1 ≤ k → k ≤ j → rank (cell d k) < rank (cell d a))
    (Hr : ∀ k, j < k → k < b → rank (cell d a) ≤ rank (cell d k)) :
    (∀ k, a ≤ k → k < j → rank (cell (Swap d j a) k) ≤ rank (cell (Swap d j a) j)) ∧
      (∀ k, j < k → k < b → rank (cell (Swap d j a) j) ≤ rank (cell (Swap d j a) k)) := by
  have hsw := fun k => cell_Swap d j a k (by omega) (by omega)
  have hj : cell (Swap d j a) j = cell d a := by
    rw [hsw]
    by_cases h : j = a
    · rw [if_pos h, h]
    · rw [if_neg h, if_pos rfl]
  rw [hj]
  constructor
  · intro k h1 h2
    rw [hsw]
    by_cases hk : k = a
    · rw [if_pos hk]; exact le_of_lt (Hl j (by omega) le_rfl)
    · rw [if_neg hk, if_neg (by omega)]; exact le_of_lt (Hl k (by omega) (by omega))
  · intro k h1 h2
    rw [hsw, if_neg (by omega), if_neg (by omega)]
    exact Hr k h1 h2

theorem partition_spec (rank : α → β) (less : LessFn α) (hL : LessBy rank less)
    (d : List α) (a b pivot : Nat) (hap : a ≤ pivot) (hpb : pivot < b) (hlen : b ≤ d.length) :
    RangePerm a b d (partition less d a b pivot).1 ∧
      a ≤ (partition less d a b pivot).2.1 ∧ (partition less d a b pivot).2.1 < b ∧
      (∀ k, a ≤ k → k < (partition less d a b pivot).2.1 →
        rank (cell (partition less d a b pivot).1 k) ≤
          rank (cell (partition less d a b pivot).1 (partition less d a b pivot).2.1)) ∧
      (∀ k, (partition less d a b pivot).2.1 < k → k < b →
        rank (cell (partition less d a b pivot).1 (partition less d a b pivot).2.1) ≤
          rank (cell (partition less d a b pivot).1 k)) := by
  simp only [partition]
  have hp0 : RangePerm a b d (Swap d a pivot) :=
    RangePerm.swap d a pivot le_rfl (by omega) hap hpb hlen
  have hlen0 : b ≤ (Swap d a pivot).length := by rw [length_Swap]; exact hlen
  generalize Swap d a pivot = d0 at hp0 hlen0 ⊢
  obtain ⟨u1, u2, u3, u4⟩ :=
    scanUp_spec (fun k => less d0 k a) (b - 1) (b - 1 + 1 - (a + 1)) (a + 1) le_rfl
  generalize scanUp (fun k => less d0 k a) (b - 1) (b - 1 + 1 - (a + 1)) (a + 1) = i' at u1 u2 u3 u4 ⊢
  obtain ⟨v1, v2, v3, v4⟩ := scanDown_spec (fun k => !less d0 k a) i' (by omega) (b - 1)
  generalize scanDown (fun k => !less d0 k a) i' (b - 1) = j' at v1 v2 v3 v4 ⊢
  have u2 := u2 (by omega)
  have v2 := v2 u2
  have Hl' : ∀ k, a + 1 ≤ k → k < i' → rank (cell d0 k) < rank (cell d0 a) := by
    intro k h1 h2
    have := u3 k h1 h2
    rw [hL] at this
    exact this
  have Hr' : ∀ k, j' < k → k < b → rank (cell d0 a) ≤ rank (cell d0 k) := by
    intro k h1 h2
    have := v3 k h1 (by omega)
    simp only [hL.not_lt] at this
    exact this
  by_cases hc : j' < i'
  · simp only [if_pos hc]
    have hsw := fun k => cell_Swap d0 j' a k (by omega) (by omega)
    obtain ⟨q1, q2⟩ := pivot_swap_spec rank d0 a b j' (by omega) (by omega) hlen0
      (fun k h1 h2 => Hl' k h1 (by omega)) Hr'
    exact ⟨hp0.trans (RangePerm.swap d0 j' a (by omega) (by omega) le_rfl (by omega) hlen0),
      by omega, by omega, q1, q2⟩
  · simp only [if_neg hc]
    have hi'j : i' ≤ b - 1 := by omega
    have w1 := u4 hi'j
    have w2 := v4 (by omega)
    simp only [hL.ge] at w1
    simp only [hL.not_ge] at w2
    have hne : i' ≠ j' := by
      intro h
      rw [h] at w1
      exact absurd w2 (not_lt.mpr w1)
    have hsw := fun k => cell_Swap d0 i' j' k (by omega) (by omega)
    obtain ⟨r1, r2, r3, r4, r5⟩ := partitionLoop_spec rank less hL (rank (cell d0 a)) a b
      (b - a) (Swap d0 i' j') (i' + 1) (j' - 1) (by omega) (by omega)
      (by omega) (by omega) (by rw [length_Swap]; exact hlen0)
      (by rw [hsw, if_neg (by omega), if_neg (by omega)])
      (by
        intro k h1 h2
        rw [hsw]
        by_cases hk : k = i'
        · rw [if_neg (by omega), if_pos hk]; exact w2
        · rw [if_neg (by omega), if_neg hk]; exact Hl' k h1 (by omega))
      (by
        intro k h1 h2
        rw [hsw]
        by_cases hk : k = j'
        · rw [if_pos hk]; exact w1
        · rw [if_neg hk, if_neg (by omega)]; exact Hr' k (by omega) h2)
    have hq : RangePerm (a + 1) b d0 (partitionLoop less a (b - a) (Swap d0 i' j') (i' + 1) (j' - 1)).1 :=
      (RangePerm.swap d0 i' j' (by omega) (by omega) (by omega) (by omega) hlen0).trans r1
    have ha : cell (partitionLoop less a (b - a) (Swap d0 i' j') (i' + 1) (j' - 1)).1 a = cell d0 a :=
      hq.outside a (by omega)
    have hlen1 := hq.length_eq
    generalize (partitionLoop less a (b - a) (Swap d0 i' j') (i' + 1) (j' - 1)) = r
      at r1 r2 r3 r4 r5 hq ha hlen1 ⊢
    rw [← ha] at r4 r5
    obtain ⟨q1, q2⟩ := pivot_swap_spec rank r.1 a b r.2 r2 r3 (by omega) r4 r5
    exact ⟨hp0.trans ((hq.mono (by omega) le_rfl (by omega)).trans
      (RangePerm.swap r.1 r.2 a (by omega) (by omega) le_rfl (by omega) (by omega))),
      r2, r3, q1, q2⟩


theorem partitionEqualLoop_spec (rank : α → β) (less : LessFn α) (hL : LessBy rank less)
    (pv : β) (a b : Nat) : ∀ (fuel : Nat) (d : List α) (i j : Nat), j + 1 - i ≤ fuel →
    a + 1 ≤ i → i ≤ j + 1 → j < b → b ≤ d.length → rank (cell d a) = pv →
    (∀ k, a + 1 ≤ k → k < i → rank (cell d k) ≤ pv) →
    (∀ k, j < k → k < b → pv < rank (cell d k)) →
    RangePerm (a + 1) b d (partitionEqualLoop less a fuel d i j).1 ∧
      a + 1 ≤ (partitionEqualLoop less a fuel d i j).2 ∧
      (partitionEqualLoop less a fuel d i j).2 ≤ b ∧
      (∀ k, a + 1 ≤ k → k < (partitionEqualLoop less a fuel d i j).2 →
        rank (cell (partitionEqualLoop less a fuel d i j).1 k) ≤ pv) ∧
      (∀ k, (partitionEqualLoop less a fuel d i j).2 ≤ k → k < b →
        pv < rank (cell (partitionEqualLoop less a fuel d i j).1 k)) := by
  intro fuel
  induction fuel with
  | zero =>
    intro d i j hf hai hij hjb hlen hpv Hl Hr
    simp only [partitionEqualLoop]
    exact ⟨RangePerm.refl _, hai, by omega, Hl, fun k h1 h2 => Hr k (by omega) h2⟩
  | succ fuel ih =>
    intro d i j hf hai hij hjb hlen hpv Hl Hr
    simp only [partitionEqualLoop]
    obtain ⟨u1, u2, u3, u4⟩ := scanUp_spec (fun k => !less d a k) j (j + 1 - i) i le_rfl
    generalize scanUp (fun k => !less d a k) j (j + 1 - i) i = i' at u1 u2 u3 u4 ⊢
    obtain ⟨v1, v2, v3, v4⟩ := scanDown_spec (fun k => less d a k) i' (by omega) j
    generalize scanDown (fun k => less d a k) i' j = j' at v1 v2 v3 v4 ⊢
    have u2 := u2 hij
    have v2 := v2 u2
    have Hl' : ∀ k, a + 1 ≤ k → k < i' → rank (cell d k) ≤ pv := by
      intro k h1 h2
      by_cases h : k < i
      · exact Hl k h1 h
      · have := u3 k (by omega) h2
        simp only [hL.not_lt, hpv] at this
        exact this
    have Hr' : ∀ k, j' < k → k < b → pv < rank (cell d k) := by
      intro k h1 h2
      by_cases h : j < k
      · exact Hr k h h2
      · have := v3 k h1 (by omega)
        simp only [hL.lt, hpv] at this
        exact this
    by_cases hc : j' < i'
    · simp only [if_pos hc]
      exact ⟨RangePerm.refl _, by omega, by omega, Hl', fun k h1 h2 => Hr' k (by omega) h2⟩
    · simp only [if_neg hc]
      have hi'j : i' ≤ j := by omega
      have w1 := u4 hi'j
      have w2 := v4 (by omega)
      simp only [hL.not_ge, hpv] at w1
      simp only [hL.ge, hpv] at w2
      have hne : i' ≠ j' := by
        intro h
        rw [h] at w1
        exact absurd w2 (not_le.mpr w1)
      have hsw := fun k => cell_Swap d i' j' k (by omega) (by omega)
      obtain ⟨r1, r2, r3, r4, r5⟩ := ih (Swap d i' j') (i' + 1) (j' - 1) (by omega) (by omega)
        (by omega) (by omega) (by rw [length_Swap]; exact hlen)
        (by rw [hsw, if_neg (by omega), if_neg (by omega)]; exact hpv)
        (by
          intro k h1 h2
          rw [hsw]
          by_cases hk : k = i'
          · rw [if_neg (by omega), if_pos hk]; exact w2
          · rw [if_neg (by omega), if_neg hk]; exact Hl' k h1 (by omega))
        (by
          intro k h1 h2
          rw [hsw]
          by_cases hk : k = j'
          · rw [if_pos hk]; exact w1
          · rw [if_neg hk, if_neg (by omega)]; exact Hr' k (by omega) h2)
      exact ⟨(RangePerm.swap d i' j' (by omega) (by omega) (by omega) (by omega) hlen).trans r1,
        r2, r3, r4, r5⟩

theorem partitionEqual_spec (rank : α → β) (less : LessFn α) (hL : LessBy rank less)
    (d : List α) (a b pivot : Nat) (hap : a ≤ pivot) (hpb : pivot < b) (hlen : b ≤ d.length) :
    RangePerm a b d (partitionEqual less d a b pivot).1 ∧
      a + 1 ≤ (partitionEqual less d a b pivot).2 ∧ (partitionEqual less d a b pivot).2 ≤ b ∧
      (∀ k, a ≤ k → k < (partitionEqual less d a b pivot).2 →
        rank (cell (partitionEqual less d a b pivot).1 k) ≤ rank (cell d pivot)) ∧
      (∀ k, (partitionEqual less d a b pivot).2 ≤ k → k < b →
        rank (cell d pivot) < rank (cell (partitionEqual less d a b pivot).1 k)) := by
  simp only [partitionEqual]
  have hp0 : RangePerm a b d (Swap d a pivot) :=
    RangePerm.swap d a pivot le_rfl (by omega) hap hpb hlen
  have hlen0 : b ≤ (Swap d a pivot).length := by rw [length_Swap]; exact hlen
  have hpv : rank (cell (Swap d a pivot) a) = rank (cell d pivot) := by
    rw [cell_Swap d a pivot a (by omega) (by omega)]
    by_cases h : a = pivot
    · rw [if_pos h, h]
    · rw [if_neg h, if_pos rfl]
  generalize Swap d a pivot = d0 at hp0 hlen0 hpv ⊢
  obtain ⟨r1, r2, r3, r4, r5⟩ := partitionEqualLoop_spec rank less hL (rank (cell d pivot)) a b
    (b - a) d0 (a + 1) (b - 1) (by omega) le_rfl (by omega) (by omega) hlen0 hpv
    (fun k h1 h2 => by omega) (fun k h1 h2 => by omega)
  have ha := r1.outside a (by omega)
  refine ⟨hp0.trans (r1.mono (by omega) le_rfl hlen0), r2, r3, ?_, r5⟩
  intro k h1 h2
  by_cases hk : k = a
  · rw [hk, ha, hpv]
  · exact r4 k (by omega) h2

theorem reverseRangeLoop_perm (a b : Nat) : ∀ (fuel : Nat) (d : List α) (i j : Nat),
    a ≤ i → j < b → b ≤ d.length → RangePerm a b d (reverseRangeLoop fuel d i j) := by
  intro fuel
  induction fuel with
  | zero => intro d i j _ _ _; exact RangePerm.refl _
  | succ fuel ih =>
    intro d i j hi hj hlen
    simp only [reverseRangeLoop]
    split_ifs with hc
    · exact (RangePerm.swap d i j hi (by omega) (by omega) hj hlen).trans
        (ih (Swap d i j) (i + 1) (j - 1) (by omega) (by omega) (by rw [length_Swap]; exact hlen))
    · exact RangePerm.refl _

theorem reverseRange_perm (d : List α) (a b : Nat) (hab : a < b) (hlen : b ≤ d.length) :
    RangePerm a b d (reverseRange d a b) :=
  reverseRangeLoop_perm a b (b - a) d a (b - 1) le_rfl (by omega) hlen

theorem bitsLenLoop_pow (fuel : Nat) : ∀ n : Nat, n ≤ fuel → 1 ≤ n →
    2 ^ bitsLenLoop fuel n ≤ 2 * n ∧ 1 ≤ bitsLenLoop fuel n := by
  induction fuel with
  | zero => intro n h1 h2; omega
  | succ fuel ih =>
    intro n h1 h2
    simp only [bitsLenLoop]
    rw [if_neg (by omega)]
    refine ⟨?_, by omega⟩
    by_cases h : n / 2 = 0
    · have : bitsLenLoop fuel (n / 2) = 0 := by
        rw [h]; cases fuel <;> simp [bitsLenLoop]
      rw [this]
      simp
      omega
    · have := (ih (n / 2) (by omega) (by omega)).1
      rw [pow_succ]
      omega

theorem bitsLen_pow (n : Nat) (h : 1 ≤ n) : 2 ^ bitsLen n ≤ 2 * n ∧ 1 ≤ bitsLen n :=
  bitsLenLoop_pow n n le_rfl h

theorem breakPatterns_perm (d : List α) (a b : Nat) (hlen : b ≤ d.length) :
    RangePerm a b d (breakPatterns d a b) := by
  unfold breakPatterns
  simp only []
  split_ifs with h8
  · have key : ∀ (l : List Nat) (s : Nat × List α), (∀ i ∈ l, i < 3) → b ≤ s.2.length →
        RangePerm a b s.2 (l.foldl
          (fun (s : Nat × List α) i =>
            (xorshiftNext s.1,
              Swap s.2 (a + (b - a) / 4 * 2 - 1 - 1 + i)
                (a + if b - a ≤ xorshiftNext s.1 &&& nextPowerOfTwo (b - a) - 1
                  then (xorshiftNext s.1 &&& nextPowerOfTwo (b - a) - 1) - (b - a)
                  else xorshiftNext s.1 &&& nextPowerOfTwo (b - a) - 1))) s).2 := by
      intro l
      induction l with
      | nil => intro s _ _; exact RangePerm.refl _
      | cons i l ih =>
        intro s hl hs
        simp only [List.foldl_cons]
        have hi : i < 3 := hl i (List.mem_cons_self _ _)
        have hm : xorshiftNext s.1 &&& nextPowerOfTwo (b - a) - 1 < 2 * (b - a) := by
          have h1 := (bitsLen_pow (b - a) (by omega)).1
          have h2 : xorshiftNext s.1 &&& nextPowerOfTwo (b - a) - 1 ≤ nextPowerOfTwo (b - a) - 1 :=
            Nat.and_le_right
          have h3 : 0 < nextPowerOfTwo (b - a) := Nat.pos_pow_of_pos _ (by omega)
          unfold nextPowerOfTwo at h2 h3 ⊢
          omega
        have hstep := ih (xorshiftNext s.1,
          Swap s.2 (a + (b - a) / 4 * 2 - 1 - 1 + i)
            (a + if b - a ≤ xorshiftNext s.1 &&& nextPowerOfTwo (b - a) - 1
              then (xorshiftNext s.1 &&& nextPowerOfTwo (b - a) - 1) - (b - a)
              else xorshiftNext s.1 &&& nextPowerOfTwo (b - a) - 1))
          (fun i hi => hl i (List.mem_cons_of_mem _ hi))
          (by simp only [length_Swap]; exact hs)
        exact RangePerm.trans (RangePerm.swap s.2 _ _ (by omega) (by omega) (by omega)
          (by split_ifs <;> omega) hs) hstep
    exact key (List.range 3) (_, d) (fun i hi => List.mem_range.mp hi) hlen
  · exact RangePerm.refl _


theorem RangePerm.lowerBound {rank : α → β} {a b : Nat} {d d' : List α}
    (h : RangePerm a b d d') (hl : LowerBound rank d a b) : LowerBound rank d' a b := by
  intro ha k hk1 hk2
  rw [h.outside (a - 1) (by omega)]
  exact h.forall_in (fun x => rank (cell d (a - 1)) ≤ rank x) (hl ha) k hk1 hk2

omit [Inhabited α] in
theorem median_bounds (less : LessFn α) (d : List α) (a b c s lo hi : Nat)
    (ha : lo ≤ a ∧ a ≤ hi) (hb : lo ≤ b ∧ b ≤ hi) (hc : lo ≤ c ∧ c ≤ hi) :
    lo ≤ (median less d a b c s).1 ∧ (median less d a b c s).1 ≤ hi := by
  unfold median order2
  simp only []
  split_ifs <;> assumption

theorem median_sorted (rank : α → β) (less : LessFn α) (hL : LessBy rank less) (d : List α)
    (a b c s : Nat) (h1 : rank (cell d a) ≤ rank (cell d b))
    (h2 : rank (cell d b) ≤ rank (cell d c)) : median less d a b c s = (b, s) := by
  have e1 : less d b a = false := (hL.ge d b a).mpr h1
  have e2 : less d c b = false := (hL.ge d c b).mpr h2
  simp [median, order2, e1, e2]

omit [Inhabited α] in
theorem choosePivot_bounds (less : LessFn α) (d : List α) (a b : Nat) (h8 : 8 ≤ b - a) :
    a ≤ (choosePivot less d a b).1 ∧ (choosePivot less d a b).1 < b := by
  have key : ∀ r : Nat × Nat, a + (b - a) / 4 - 1 ≤ r.1 ∧ r.1 ≤ a + (b - a) / 4 * 3 + 1 →
      a ≤ (if r.2 = 0 then (r.1, sortedHint.increasingHint)
        else if r.2 = 4 * 3 then (r.1, sortedHint.decreasingHint)
        else (r.1, sortedHint.unknownHint)).1 ∧
      (if r.2 = 0 then (r.1, sortedHint.increasingHint)
        else if r.2 = 4 * 3 then (r.1, sortedHint.decreasingHint)
        else (r.1, sortedHint.unknownHint)).1 < b := by
    intro r hr
    have : (if r.2 = 0 then (r.1, sortedHint.increasingHint)
        else if r.2 = 4 * 3 then (r.1, sortedHint.decreasingHint)
        else (r.1, sortedHint.unknownHint)).1 = r.1 := by
      split_ifs <;> rfl
    rw [this]
    omega
  unfold choosePivot
  simp only [if_pos h8]
  apply key
  split_ifs with h50
  · apply median_bounds
    · exact median_bounds less d _ _ _ _ _ _ (by omega) (by omega) (by omega)
    · exact median_bounds less d _ _ _ _ _ _ (by omega) (by omega) (by omega)
    · exact median_bounds less d _ _ _ _ _ _ (by omega) (by omega) (by omega)
  · exact median_bounds less d _ _ _ _ _ _ (by omega) (by omega) (by omega)

theorem choosePivot_sorted (rank : α → β) (less : LessFn α) (hL : LessBy rank less)
    (d : List α) (a b : Nat) (hs : SortedOn rank d a b) :
    (choosePivot less d a b).2 = sortedHint.increasingHint := by
  unfold choosePivot
  simp only []
  by_cases h8 : 8 ≤ b - a
  · simp only [if_pos h8]
    by_cases h50 : 50 ≤ b - a
    · simp only [if_pos h50, medianAdjacent]
      have m1 : ∀ s, median less d (a + (b - a) / 4 * 1 - 1) (a + (b - a) / 4 * 1)
          (a + (b - a) / 4 * 1 + 1) s = (a + (b - a) / 4 * 1, s) := fun s =>
        median_sorted rank less hL d _ _ _ _ (hs _ _ (by omega) (by omega) (by omega))
          (hs _ _ (by omega) (by omega) (by omega))
      have m2 : ∀ s, median less d (a + (b - a) / 4 * 2 - 1) (a + (b - a) / 4 * 2)
          (a + (b - a) / 4 * 2 + 1) s = (a + (b - a) / 4 * 2, s) := fun s =>
        median_sorted rank less hL d _ _ _ _ (hs _ _ (by omega) (by omega) (by omega))
          (hs _ _ (by omega) (by omega) (by omega))
      have m3 : ∀ s, median less d (a + (b - a) / 4 * 3 - 1) (a + (b - a) / 4 * 3)
          (a + (b - a) / 4 * 3 + 1) s = (a + (b - a) / 4 * 3, s) := fun s =>
        median_sorted rank less hL d _ _ _ _ (hs _ _ (by omega) (by omega) (by omega))
          (hs _ _ (by omega) (by omega) (by omega))
      have m4 : ∀ s, median less d (a + (b - a) / 4 * 1) (a + (b - a) / 4 * 2)
          (a + (b - a) / 4 * 3) s = (a + (b - a) / 4 * 2, s) := fun s =>
        median_sorted rank less hL d _ _ _ _ (hs _ _ (by omega) (by omega) (by omega))
          (hs _ _ (by omega) (by omega) (by omega))
      simp only [m1, m2, m3, m4]
      simp
    · simp only [if_neg h50]
      rw [median_sorted rank less hL d _ _ _ _ (hs _ _ (by omega) (by omega) (by omega))
        (hs _ _ (by omega) (by omega) (by omega))]
      simp
  · simp [if_neg h8]

theorem shiftLeft_eq_inner (rank : α → β) (less : LessFn α) (hL : LessBy rank less)
    (a b : Nat) : ∀ (j : Nat) (d : List α), a ≤ j → j < b → b ≤ d.length →
    LowerBound rank d a b → shiftLeft less j d = insertionSortInner less a j d := by
  intro j
  induction j with
  | zero => intro d _ _ _ _; rfl
  | succ j ih =>
    intro d haj hjb hlen hlb
    simp only [shiftLeft, insertionSortInner]
    by_cases ha : a < j + 1
    · by_cases hc : less d (j + 1) j = true
      · rw [if_pos hc, if_pos ⟨ha, hc⟩]
        have hp : RangePerm a b d (Swap d (j + 1) j) :=
          RangePerm.swap d (j + 1) j (by omega) hjb (by omega) (by omega) hlen
        exact ih _ (by omega) (by omega) (by rw [length_Swap]; exact hlen) (hp.lowerBound hlb)
      · rw [if_neg hc, if_neg (fun h => hc h.2)]
    · have e : a = j + 1 := by omega
      have h1 := hlb (by omega) (j + 1) (by omega) hjb
      have h2 : less d (j + 1) j = false := by
        rw [hL.ge]
        have e' : a - 1 = j := by omega
        rw [e'] at h1
        exact h1
      rw [if_neg (by simp [h2]), if_neg (fun h => ha h.1)]

theorem shiftRight_perm (less : LessFn α) (lo b : Nat) : ∀ (fuel j : Nat) (d : List α),
    lo + 1 ≤ j → b ≤ d.length → RangePerm lo b d (shiftRight less b fuel j d) := by
  intro fuel
  induction fuel with
  | zero => intro j d _ _; exact RangePerm.refl _
  | succ fuel ih =>
    intro j d hj hlen
    simp only [shiftRight]
    split_ifs with h1 h2
    · exact (RangePerm.swap d j (j - 1) (by omega) h1 (by omega) (by omega) hlen).trans
        (ih (j + 1) _ (by omega) (by rw [length_Swap]; exact hlen))
    · exact RangePerm.refl _
    · exact RangePerm.refl _

theorem SortedOn.extend {rank : α → β} {d : List α} {a i : Nat} (hs : SortedOn rank d a i)
    (hai : a < i) : ∀ (i' : Nat), i ≤ i' →
    (∀ k, i ≤ k → k < i' → rank (cell d (k - 1)) ≤ rank (cell d k)) → SortedOn rank d a i' := by
  intro i'
  induction i' with
  | zero => intro h; omega
  | succ n ih =>
    intro hi hadj
    by_cases hn : i ≤ n
    · have hs' := ih hn (fun k h1 h2 => hadj k h1 (by omega))
      intro p q hp hpq hq
      by_cases hqn : q = n
      · rw [hqn]
        by_cases hpn : p = n
        · rw [hpn]
        · have h1 := hs' p (n - 1) hp (by omega) (by omega)
          exact le_trans h1 (hadj n hn (by omega))
      · exact hs' p q hp hpq (by omega)
    · have e : i = n + 1 := by omega
      rw [← e]; exact hs

theorem partialInsertionSortLoop_spec (rank : α → β) (less : LessFn α)
    (hL : LessBy rank less) (a b : Nat) : ∀ (steps i : Nat) (d : List α), a + 1 ≤ i → i ≤ b →
    b ≤ d.length → LowerBound rank d a b → SortedOn rank d a i →
    RangePerm a b d (partialInsertionSortLoop less a b steps i d).1 ∧
      ((partialInsertionSortLoop less a b steps i d).2 = true →
        SortedOn rank (partialInsertionSortLoop less a b steps i d).1 a b) := by
  intro steps
  induction steps with
  | zero =>
    intro i d _ _ _ _ _
    simp only [partialInsertionSortLoop]
    exact ⟨RangePerm.refl _, fun h => by simp at h⟩
  | succ steps ih =>
    intro i d hai hib hlen hlb hs
    simp only [partialInsertionSortLoop]
    obtain ⟨u1, u2, u3, -⟩ :=
      scanUp_spec (fun k => !less d k (k - 1)) (b - 1) (b - i) i (by omega)
    generalize scanUp (fun k => !less d k (k - 1)) (b - 1) (b - i) i = i' at u1 u2 u3 ⊢
    have u2 := u2 (by omega)
    have hs' : SortedOn rank d a i' := hs.extend (by omega) i' u1 (by
      intro k h1 h2
      have := u3 k h1 h2
      simp only [hL.not_lt] at this
      exact this)
    by_cases hc1 : i' = b
    · simp only [if_pos hc1]
      rw [hc1] at hs'
      exact ⟨RangePerm.refl _, fun _ => hs'⟩
    · simp only [if_neg hc1]
      by_cases hc2 : b - a < 50
      · simp only [if_pos hc2]
        exact ⟨RangePerm.refl _, fun h => by simp at h⟩
      · simp only [if_neg hc2]
        have hp1 : RangePerm a b d (Swap d i' (i' - 1)) :=
          RangePerm.swap d i' (i' - 1) (by omega) (by omega) (by omega) (by omega) hlen
        have hlen1 : b ≤ (Swap d i' (i' - 1)).length := by rw [length_Swap]; exact hlen
        have hlb1 := hp1.lowerBound hlb
        have hsw := fun k => cell_Swap d i' (i' - 1) k (by omega) (by omega)
        generalize Swap d i' (i' - 1) = d1 at hp1 hlen1 hlb1 hsw ⊢
        have h2 : RangePerm a b d1 (if 2 ≤ i' - a then shiftLeft less (i' - 1) d1 else d1) ∧
            SortedOn rank (if 2 ≤ i' - a then shiftLeft less (i' - 1) d1 else d1) a i' := by
          by_cases hc3 : 2 ≤ i' - a
          · simp only [if_pos hc3]
            rw [shiftLeft_eq_inner rank less hL a b (i' - 1) d1 (by omega) (by omega) hlen1 hlb1]
            have := insertionSortInner_spec rank less hL a (i' - 1) (i' - 1) d1 (by omega) le_rfl
              (by omega)
              (by
                intro p q hp hpq hq hpne hqne
                rw [hsw p, hsw q, if_neg hpne, if_neg hqne, if_neg (by omega), if_neg (by omega)]
                exact hs' p q hp hpq (by omega))
              (by intro q h1 h2; omega)
            have e : i' - 1 + 1 = i' := by omega
            rw [e] at this
            exact ⟨this.1.mono le_rfl (by omega) (by omega), this.2⟩
          · simp only [if_neg hc3]
            refine ⟨RangePerm.refl _, ?_⟩
            intro p q hp hpq hq
            have : p = q := by omega
            rw [this]
        have hlen2 : b ≤ (if 2 ≤ i' - a then shiftLeft less (i' - 1) d1 else d1).length := by
          rw [h2.1.length_eq]; exact hlen1
        generalize (if 2 ≤ i' - a then shiftLeft less (i' - 1) d1 else d1) = d2 at h2 hlen2 ⊢
        have h3 : RangePerm i' b d2
            (if 2 ≤ b - i' then shiftRight less b (b - (i' + 1)) (i' + 1) d2 else d2) := by
          split_ifs
          · exact shiftRight_perm less i' b _ _ d2 le_rfl hlen2
          · exact RangePerm.refl _
        have hlen3 := h3.length_eq
        generalize (if 2 ≤ b - i' then shiftRight less b (b - (i' + 1)) (i' + 1) d2 else d2) = d3
          at h3 hlen3 ⊢
        have hp3 : RangePerm a b d d3 :=
          hp1.trans (h2.1.trans (h3.mono (by omega) le_rfl hlen2))
        have hs3 : SortedOn rank d3 a i' := by
          intro p q hp hpq hq
          rw [h3.outside p (by omega), h3.outside q (by omega)]
          exact h2.2 p q hp hpq hq
        obtain ⟨r1, r2⟩ := ih i' d3 (by omega) (by omega) (by omega) (hp3.lowerBound hlb) hs3
        exact ⟨hp3.trans r1, r2⟩

theorem partialInsertionSort_spec (rank : α → β) (less : LessFn α) (hL : LessBy rank less)
    (d : List α) (a b : Nat) (hab : a < b) (hlen : b ≤ d.length)
    (hlb : LowerBound rank d a b) :
    RangePerm a b d (partialInsertionSort less d a b).1 ∧
      ((partialInsertionSort less d a b).2 = true →
        SortedOn rank (partialInsertionSort less d a b).1 a b) :=
  partialInsertionSortLoop_spec rank less hL a b 5 (a + 1) d le_rfl (by omega) hlen hlb
    (by intro p q h1 h2 h3; have : p = q := by omega
        rw [this])

theorem partialInsertionSort_sorted (rank : α → β) (less : LessFn α) (hL : LessBy rank less)
    (d : List α) (a b : Nat) (hab : a < b) (hs : SortedOn rank d a b) :
    partialInsertionSort less d a b = (d, true) := by
  unfold partialInsertionSort
  rw [partialInsertionSortLoop]
  simp only []
  obtain ⟨u1, u2, -, u4⟩ :=
    scanUp_spec (fun k => !less d k (k - 1)) (b - 1) (b - (a + 1)) (a + 1) (by omega)
  generalize scanUp (fun k => !less d k (k - 1)) (b - 1) (b - (a + 1)) (a + 1) = i' at u1 u2 u4 ⊢
  have u2 := u2 (by omega)
  have : i' = b := by
    by_contra hne
    have := u4 (by omega)
    simp only [hL.not_ge] at this
    exact absurd (hs (i' - 1) i' (by omega) (by omega) (by omega)) (not_le.mpr this)
  simp [this]


theorem siftDown_step (rank : α → β) (d : List α) (first lo hi root cs : Nat)
    (hlen : first + hi ≤ d.length) (hcs : cs < hi)
    (hchild : cs = 2 * root + 1 ∨ cs = 2 * root + 2)
    (hF : ∀ c, c < hi → (c = 2 * root + 1 ∨ c = 2 * root + 2) →
      rank (cell d (first + c)) ≤ rank (cell d (first + cs)))
    (hlt : rank (cell d (first + root)) < rank (cell d (first + cs)))
    (H1 : ∀ p c, lo ≤ p → p ≠ root → c < hi → (c = 2 * p + 1 ∨ c = 2 * p + 2) →
      rank (cell d (first + c)) ≤ rank (cell d (first + p)))
    (H2 : ∀ p c, lo ≤ p → (root = 2 * p + 1 ∨ root = 2 * p + 2) → c < hi →
      (c = 2 * root + 1 ∨ c = 2 * root + 2) →
      rank (cell d (first + c)) ≤ rank (cell d (first + p))) (hlo : lo ≤ root) :
    (∀ p c, lo ≤ p → p ≠ cs → c < hi → (c = 2 * p + 1 ∨ c = 2 * p + 2) →
      rank (cell (Swap d (first + root) (first + cs)) (first + c)) ≤
        rank (cell (Swap d (first + root) (first + cs)) (first + p))) ∧
    (∀ p c, lo ≤ p → (cs = 2 * p + 1 ∨ cs = 2 * p + 2) → c < hi →
      (c = 2 * cs + 1 ∨ c = 2 * cs + 2) →
      rank (cell (Swap d (first + root) (first + cs)) (first + c)) ≤
        rank (cell (Swap d (first + root) (first + cs)) (first + p))) := by
  have hsw : ∀ x, cell (Swap d (first + root) (first + cs)) (first + x) =
      if x = cs then cell d (first + root) else if x = root then cell d (first + cs)
      else cell d (first + x) := by
    intro x
    rw [cell_Swap d (first + root) (first + cs) (first + x) (by omega) (by omega)]
    by_cases h1 : x = cs
    · rw [if_pos (by omega), if_pos h1]
    · rw [if_neg (by omega), if_neg h1]
      by_cases h2 : x = root
      · rw [if_pos (by omega), if_pos h2]
      · rw [if_neg (by omega), if_neg h2]
  constructor
  · intro p c hp hpne hc hcp
    rw [hsw c, hsw p, if_neg hpne]
    by_cases hpr : p = root
    · rw [if_pos hpr]
      by_cases hcc : c = cs
      · rw [if_pos hcc]; exact le_of_lt hlt
      · rw [if_neg hcc, if_neg (by omega)]
        exact hF c hc (by omega)
    · rw [if_neg hpr, if_neg (by omega)]
      by_cases hcr : c = root
      · rw [if_pos hcr]
        exact H2 p cs hp (by omega) hcs hchild
      · rw [if_neg hcr]
        exact H1 p c hp hpr hc hcp
  · intro p c hp hpc hc hcc
    have hpr : p = root := by omega
    rw [hsw c, hsw p, if_neg (by omega), if_neg (by omega), if_neg (by omega), if_pos hpr]
    exact H1 cs c (by omega) (by omega) hc hcc

theorem siftDownLoop_spec (rank : α → β) (less : LessFn α) (hL : LessBy rank less)
    (first lo hi : Nat) : ∀ (fuel root : Nat) (d : List α), hi ≤ root + fuel → lo ≤ root →
    first + hi ≤ d.length →
    (∀ p c, lo ≤ p → p ≠ root → c < hi → (c = 2 * p + 1 ∨ c = 2 * p + 2) →
      rank (cell d (first + c)) ≤ rank (cell d (first + p))) →
    (∀ p c, lo ≤ p → (root = 2 * p + 1 ∨ root = 2 * p + 2) → c < hi →
      (c = 2 * root + 1 ∨ c = 2 * root + 2) →
      rank (cell d (first + c)) ≤ rank (cell d (first + p))) →
    RangePerm (first + lo) (first + hi) d (siftDownLoop less hi first fuel root d) ∧
      HeapFrom rank (siftDownLoop less hi first fuel root d) first lo hi := by
  intro fuel
  induction fuel with
  | zero =>
    intro root d hf hlo hlen H1 H2
    simp only [siftDownLoop]
    refine ⟨RangePerm.refl _, ?_⟩
    intro p c hp hc hcp
    exact H1 p c hp (by omega) hc hcp
  | succ fuel ih =>
    intro root d hf hlo hlen H1 H2
    simp only [siftDownLoop]
    by_cases h0 : hi ≤ 2 * root + 1
    · rw [if_pos h0]
      refine ⟨RangePerm.refl _, ?_⟩
      intro p c hp hc hcp
      exact H1 p c hp (by omega) hc hcp
    · rw [if_neg h0]
      have key : ∀ cs, cs < hi → (cs = 2 * root + 1 ∨ cs = 2 * root + 2) →
          (∀ c, c < hi → (c = 2 * root + 1 ∨ c = 2 * root + 2) →
            rank (cell d (first + c)) ≤ rank (cell d (first + cs))) →
          RangePerm (first + lo) (first + hi) d
            (if less d (first + root) (first + cs) = true then
              siftDownLoop less hi first fuel cs (Swap d (first + root) (first + cs))
            else d) ∧
          HeapFrom rank
            (if less d (first + root) (first + cs) = true then
              siftDownLoop less hi first fuel cs (Swap d (first + root) (first + cs))
            else d) first lo hi := by
        intro cs hcs hchild hF
        by_cases hc : less d (first + root) (first + cs) = true
        · rw [if_pos hc]
          rw [hL.lt] at hc
          obtain ⟨G1, G2⟩ := siftDown_step rank d first lo hi root cs hlen hcs hchild hF hc
            H1 H2 hlo
          obtain ⟨r1, r2⟩ := ih cs (Swap d (first + root) (first + cs)) (by omega) (by omega)
            (by rw [length_Swap]; exact hlen) G1 G2
          exact ⟨(RangePerm.swap d (first + root) (first + cs) (by omega) (by omega)
            (by omega) (by omega) hlen).trans r1, r2⟩
        · rw [if_neg hc]
          have hc' : rank (cell d (first + cs)) ≤ rank (cell d (first + root)) := by
            have : less d (first + root) (first + cs) = false := by simpa using hc
            rw [hL.ge] at this
            exact this
          refine ⟨RangePerm.refl _, ?_⟩
          intro p c hp hcl hcp
          by_cases hpr : p = root
          · rw [hpr]
            exact le_trans (hF c hcl (by omega)) hc'
          · exact H1 p c hp hpr hcl hcp
      by_cases hA : 2 * root + 1 + 1 < hi ∧
          less d (first + (2 * root + 1)) (first + (2 * root + 1) + 1) = true
      · simp only [if_pos hA]
        apply key (2 * root + 1 + 1) hA.1 (by omega)
        intro c hc hcr
        have h2 := hA.2
        rw [hL.lt] at h2
        rcases hcr with h | h
        · rw [h]
          have e : first + (2 * root + 1 + 1) = first + (2 * root + 1) + 1 := by omega
          rw [e]
          exact le_of_lt h2
        · have e : c = 2 * root + 1 + 1 := by omega
          rw [e]
      · simp only [if_neg hA]
        apply key (2 * root + 1) (by omega) (by omega)
        intro c hc hcr
        rcases hcr with h | h
        · rw [h]
        · have h3 : less d (first + (2 * root + 1)) (first + (2 * root + 1) + 1) = false := by
            by_contra hn
            exact hA ⟨by omega, by simpa using hn⟩
          rw [hL.ge] at h3
          have e : first + c = first + (2 * root + 1) + 1 := by omega
          rw [e]
          exact h3

theorem siftDown_spec (rank : α → β) (less : LessFn α) (hL : LessBy rank less)
    (d : List α) (lo hi first : Nat) (hlen : first + hi ≤ d.length)
    (H : HeapFrom rank d first (lo + 1) hi) :
    RangePerm (first + lo) (first + hi) d (siftDown less d lo hi first) ∧
      HeapFrom rank (siftDown less d lo hi first) first lo hi := by
  unfold siftDown
  apply siftDownLoop_spec rank less hL first lo hi hi lo d (by omega) le_rfl hlen
  · intro p c hp hpne hc hcp
    exact H p c (by omega) hc hcp
  · intro p c hp hpc hc hcc
    omega

theorem HeapFrom.root_max {rank : α → β} {d : List α} {first hi : Nat}
    (H : HeapFrom rank d first 0 hi) : ∀ c, c < hi →
    rank (cell d (first + c)) ≤ rank (cell d (first + 0)) := by
  intro c
  induction c using Nat.strong_induction_on with
  | _ c ih =>
    intro hc
    by_cases h0 : c = 0
    · rw [h0]
    · have h1 := H ((c - 1) / 2) c (Nat.zero_le _) hc (by omega)
      exact le_trans h1 (ih ((c - 1) / 2) (by omega) (by omega))

theorem foldl_range_reverse_induction {σ : Type} (P : Nat → σ → Prop) (f : σ → Nat → σ) :
    ∀ (n : Nat) (s : σ), (∀ i s, i < n → P (i + 1) s → P i (f s i)) → P n s →
    P 0 ((List.range n).reverse.foldl f s) := by
  intro n
  induction n with
  | zero => intro s _ h; simpa using h
  | succ n ih =>
    intro s hstep h
    rw [List.range_succ, List.reverse_append]
    simp only [List.reverse_cons, List.reverse_nil, List.nil_append, List.singleton_append,
      List.foldl_cons]
    exact ih (f s n) (fun i s hi hp => hstep i s (by omega) hp) (hstep n s (by omega) h)

theorem heapSort_spec (rank : α → β) (less : LessFn α) (hL : LessBy rank less)
    (d : List α) (a b : Nat) (hab : a ≤ b) (hlen : b ≤ d.length) :
    RangePerm a b d (heapSort less d a b) ∧ SortedOn rank (heapSort less d a b) a b := by
  unfold heapSort
  simp only []
  have e1 : a + (b - a) = b := by omega
  -- building the heap
  have ph1 := foldl_range_reverse_induction
    (fun i (s : List α) => RangePerm a b d s ∧ HeapFrom rank s a i (b - a))
    (fun s i => siftDown less s i (b - a) a) ((b - a - 1) / 2 + 1) d
    (by
      intro i s _ ⟨hp, hh⟩
      beta_reduce
      have hl : a + (b - a) ≤ s.length := by rw [hp.length_eq]; omega
      obtain ⟨r1, r2⟩ := siftDown_spec rank less hL s i (b - a) a hl hh
      exact ⟨hp.trans (r1.mono (by omega) (by omega) (by omega)), r2⟩)
    ⟨RangePerm.refl _, by intro p c hp hc hcp; omega⟩
  obtain ⟨hp1, hh1⟩ := ph1
  generalize (List.range ((b - a - 1) / 2 + 1)).reverse.foldl
    (fun s i => siftDown less s i (b - a) a) d = d1 at hp1 hh1 ⊢
  -- popping the greatest element
  have ph2 := foldl_range_reverse_induction
    (fun i (s : List α) => RangePerm a b d s ∧ HeapFrom rank s a 0 i ∧
      SortedOn rank s (a + i) b ∧
      ∀ k q, k < i → i ≤ q → q < b - a → rank (cell s (a + k)) ≤ rank (cell s (a + q)))
    (fun s i => siftDown less (Swap s a (a + i)) 0 i a) (b - a) d1
    (by
      intro i s hi ⟨hp, hh, hs, hx⟩
      beta_reduce
      have hl : b ≤ s.length := by rw [hp.length_eq]; exact hlen
      have hsw : ∀ x, cell (Swap s a (a + i)) (a + x) =
          if x = i then cell s a else if x = 0 then cell s (a + i) else cell s (a + x) := by
        intro x
        rw [cell_Swap s a (a + i) (a + x) (by omega) (by omega)]
        by_cases h1 : x = i
        · rw [if_pos (by omega), if_pos h1]
        · rw [if_neg (by omega), if_neg h1]
          by_cases h2 : x = 0
          · rw [if_pos (by omega), if_pos h2]
          · rw [if_neg (by omega), if_neg h2]
      have hpe : RangePerm a b s (Swap s a (a + i)) :=
        RangePerm.swap s a (a + i) le_rfl (by omega) (by omega) (by omega) hl
      have hle : a + i ≤ (Swap s a (a + i)).length := by rw [length_Swap]; omega
      have hmax : ∀ c, c < i + 1 → rank (cell s (a + c)) ≤ rank (cell s a) := by
        intro c hc
        have := hh.root_max c hc
        simpa using this
      obtain ⟨r1, r2⟩ := siftDown_spec rank less hL (Swap s a (a + i)) 0 i a hle
        (by
          intro p c hp' hc hcp
          have h1 : ¬ c = i := by omega
          have h2 : ¬ c = 0 := by omega
          have h3 : ¬ p = i := by omega
          have h4 : ¬ p = 0 := by omega
          rw [hsw c, hsw p]
          simp only [if_neg h1, if_neg h2, if_neg h3, if_neg h4]
          exact hh p c (Nat.zero_le _) (by omega) hcp)
      have hcross : ∀ k q, k < i → i ≤ q → q < b - a →
          rank (cell (Swap s a (a + i)) (a + k)) ≤ rank (cell (Swap s a (a + i)) (a + q)) := by
        intro k q hk hq1 hq2
        have hki : ¬ k = i := by omega
        rw [hsw k, hsw q]
        simp only [if_neg hki]
        by_cases hqi : q = i
        · simp only [if_pos hqi]
          by_cases hk0 : k = 0
          · simp only [if_pos hk0]; exact hmax i (by omega)
          · simp only [if_neg hk0]; exact hmax k (by omega)
        · have hq0 : ¬ q = 0 := by omega
          simp only [if_neg hqi, if_neg hq0]
          by_cases hk0 : k = 0
          · simp only [if_pos hk0]; exact hx i q (by omega) (by omega) hq2
          · simp only [if_neg hk0]; exact hx k q (by omega) (by omega) hq2
      generalize siftDown less (Swap s a (a + i)) 0 i a = f at r1 r2 ⊢
      have hout : ∀ q, i ≤ q → cell f (a + q) = cell (Swap s a (a + i)) (a + q) :=
        fun q hq => r1.outside (a + q) (by omega)
      have hpf : RangePerm a b s f :=
        hpe.trans (r1.mono (by omega) (by omega) (by rw [length_Swap]; omega))
      refine ⟨hp.trans hpf, r2, ?_, ?_⟩
      · intro x y hx1 hxy hy
        have ex : x = a + (x - a) := by omega
        have ey : y = a + (y - a) := by omega
        rw [ex, ey, hout _ (by omega), hout _ (by omega), hsw, hsw]
        have hy0 : ¬ y - a = 0 ∨ y - a = i := by omega
        by_cases hxi : x - a = i
        · simp only [if_pos hxi]
          by_cases hyi : y - a = i
          · simp only [if_pos hyi, le_refl]
          · have hy0 : ¬ y - a = 0 := by omega
            simp only [if_neg hyi, if_neg hy0]
            have := hx 0 (y - a) (by omega) (by omega) (by omega)
            simpa using this
        · have hx0 : ¬ x - a = 0 := by omega
          have hyi : ¬ y - a = i := by omega
          have hy0 : ¬ y - a = 0 := by omega
          simp only [if_neg hxi, if_neg hx0, if_neg hyi, if_neg hy0]
          have := hs x y (by omega) hxy hy
          rw [ex, ey] at this
          exact this
      · intro k q hk hq1 hq2
        rw [hout q hq1]
        obtain ⟨k', h1, h2, h3⟩ := r1.inside (a + k) (by omega) (by omega)
        rw [h3]
        have ek : k' = a + (k' - a) := by omega
        rw [ek]
        exact hcross (k' - a) q (by omega) hq1 hq2)
    ⟨hp1, hh1, by intro x y h1 h2 h3; omega, by intro k q h1 h2 h3; omega⟩
  obtain ⟨hp2, -, hs2, -⟩ := ph2
  exact ⟨hp2, by simpa using hs2⟩


theorem SortedOn.join {rank : α → β} {d : List α} {a mid b : Nat}
    (hl : ∀ k, a ≤ k → k < mid → rank (cell d k) ≤ rank (cell d mid))
    (hr : ∀ k, mid < k → k < b → rank (cell d mid) ≤ rank (cell d k))
    (h1 : SortedOn rank d a mid) (h2 : SortedOn rank d (mid + 1) b) : SortedOn rank d a b := by
  intro i j hi hij hj
  by_cases hjm : j < mid
  · exact h1 i j hi hij hjm
  · by_cases him : mid < i
    · exact h2 i j (by omega) hij hj
    · have hi' : rank (cell d i) ≤ rank (cell d mid) := by
        by_cases h : i = mid
        · rw [h]
        · exact hl i hi (by omega)
      have hj' : rank (cell d mid) ≤ rank (cell d j) := by
        by_cases h : j = mid
        · rw [h]
        · exact hr j (by omega) hj
      exact le_trans hi' hj'

theorem SortedOn.join_equal {rank : α → β} {d : List α} {a m b : Nat} (pv : β)
    (hl : ∀ k, a ≤ k → k < m → rank (cell d k) = pv)
    (hr : ∀ k, m ≤ k → k < b → pv ≤ rank (cell d k))
    (h2 : SortedOn rank d m b) : SortedOn rank d a b := by
  intro i j hi hij hj
  by_cases him : i < m
  · rw [hl i hi him]
    by_cases hjm : j < m
    · rw [hl j (by omega) hjm]
    · exact hr j (by omega) hj
  · exact h2 i j (by omega) hij hj

theorem pdqsort_spec (rank : α → β) (less : LessFn α) (hL : LessBy rank less) :
    ∀ (fuel : Nat) (d : List α) (a b limit : Nat) (wasBalanced wasPartitioned : Bool),
    b - a < fuel → a ≤ b → b ≤ d.length → LowerBound rank d a b →
    RangePerm a b d (pdqsort less fuel d a b limit wasBalanced wasPartitioned) ∧
      SortedOn rank (pdqsort less fuel d a b limit wasBalanced wasPartitioned) a b := by
  intro fuel
  induction fuel with
  | zero => intro d a b limit wb wp h; omega
  | succ fuel ih =>
    intro d a b limit wb wp hfuel hab hlen hlb
    simp only [pdqsort]
    by_cases h12 : b - a ≤ 12
    · simp only [if_pos h12]
      exact insertionSort_spec rank less hL d a b hlen
    simp only [if_neg h12]
    by_cases hlim : limit = 0
    · simp only [if_pos hlim]
      exact heapSort_spec rank less hL d a b hab hlen
    simp only [if_neg hlim]
    -- breakPatterns
    have hd1 : RangePerm a b d (if wb = true then d else breakPatterns d a b) := by
      split_ifs
      · exact RangePerm.refl _
      · exact breakPatterns_perm d a b hlen
    generalize (if wb = true then d else breakPatterns d a b) = d1 at hd1 ⊢
    generalize (if wb = true then limit else limit - 1) = limit1
    have hlen1 : b ≤ d1.length := by rw [hd1.length_eq]; exact hlen
    -- choosePivot
    have hcp := choosePivot_bounds less d1 a b (by omega)
    generalize choosePivot less d1 a b = c at hcp ⊢
    have hd2 : RangePerm a b d1
        (if c.2 = sortedHint.decreasingHint then reverseRange d1 a b else d1) := by
      split_ifs
      · exact reverseRange_perm d1 a b (by omega) hlen1
      · exact RangePerm.refl _
    generalize (if c.2 = sortedHint.decreasingHint then reverseRange d1 a b else d1) = d2
      at hd2 ⊢
    have hpv : a ≤ (if c.2 = sortedHint.decreasingHint then b - 1 - (c.1 - a) else c.1) ∧
        (if c.2 = sortedHint.decreasingHint then b - 1 - (c.1 - a) else c.1) < b := by
      split_ifs <;> omega
    generalize (if c.2 = sortedHint.decreasingHint then b - 1 - (c.1 - a) else c.1) = pivot
      at hpv ⊢
    generalize (if c.2 = sortedHint.decreasingHint then sortedHint.increasingHint else c.2) = hint
    have hlen2 : b ≤ d2.length := by rw [hd2.length_eq]; exact hlen1
    have hp2 : RangePerm a b d d2 := hd1.trans hd2
    -- partialInsertionSort
    have hr : RangePerm a b d2
          (if wb = true ∧ wp = true ∧ hint = sortedHint.increasingHint
            then partialInsertionSort less d2 a b else (d2, false)).1 ∧
        ((if wb = true ∧ wp = true ∧ hint = sortedHint.increasingHint
            then partialInsertionSort less d2 a b else (d2, false)).2 = true →
          SortedOn rank (if wb = true ∧ wp = true ∧ hint = sortedHint.increasingHint
            then partialInsertionSort less d2 a b else (d2, false)).1 a b) := by
      split_ifs
      · exact partialInsertionSort_spec rank less hL d2 a b (by omega) hlen2
          (hp2.lowerBound hlb)
      · exact ⟨RangePerm.refl _, fun h => by simp at h⟩
    generalize (if wb = true ∧ wp = true ∧ hint = sortedHint.increasingHint
      then partialInsertionSort less d2 a b else (d2, false)) = r at hr ⊢
    by_cases hr2 : r.2 = true
    · simp only [if_pos hr2]
      exact ⟨hp2.trans hr.1, hr.2 hr2⟩
    simp only [if_neg hr2]
    have hp3 : RangePerm a b d r.1 := hp2.trans hr.1
    generalize r.1 = d3 at hp3 ⊢
    have hlen3 : b ≤ d3.length := by rw [hp3.length_eq]; exact hlen
    have hlb3 : LowerBound rank d3 a b := hp3.lowerBound hlb
    by_cases hpe : 0 < a ∧ less d3 (a - 1) pivot = false
    · -- partitionEqual
      simp only [if_pos hpe]
      obtain ⟨q1, q2, q3, q4, q5⟩ :=
        partitionEqual_spec rank less hL d3 a b pivot hpv.1 hpv.2 hlen3
      have hge : ∀ k, a ≤ k → k < b → rank (cell d3 pivot) ≤ rank (cell d3 k) := by
        intro k hk1 hk2
        have h1 := (hL.ge d3 (a - 1) pivot).mp hpe.2
        exact le_trans h1 (hlb3 hpe.1 k hk1 hk2)
      have hge' := q1.forall_in (fun x => rank (cell d3 pivot) ≤ rank x) hge
      generalize partitionEqual less d3 a b pivot = e at q1 q2 q3 q4 q5 hge' ⊢
      obtain ⟨r1, r2⟩ := ih e.1 e.2 b limit1 wb wp (by omega) q3
        (by rw [q1.length_eq]; exact hlen3)
        (by
          intro _ k hk1 hk2
          exact le_trans (q4 (e.2 - 1) (by omega) (by omega)) (le_of_lt (q5 k hk1 hk2)))
      have hpo : RangePerm a b d (pdqsort less fuel e.1 e.2 b limit1 wb wp) :=
        hp3.trans (q1.trans (r1.mono (by omega) le_rfl (by rw [q1.length_eq]; exact hlen3)))
      refine ⟨hpo, ?_⟩
      apply SortedOn.join_equal (rank (cell d3 pivot)) _ _ r2
      · intro k hk1 hk2
        rw [r1.outside k (by omega)]
        exact le_antisymm (q4 k hk1 hk2) (hge' k hk1 (by omega))
      · intro k hk1 hk2
        exact r1.forall_in (fun x => rank (cell d3 pivot) ≤ rank x)
          (fun k h1 h2 => hge' k (by omega) h2) k hk1 hk2
    · -- partition
      simp only [if_neg hpe]
      obtain ⟨q1, q2, q3, q4, q5⟩ :=
        partition_spec rank less hL d3 a b pivot hpv.1 hpv.2 hlen3
      generalize partition less d3 a b pivot = p at q1 q2 q3 q4 q5 ⊢
      have hlenp : b ≤ p.1.length := by rw [q1.length_eq]; exact hlen3
      have hlbp : LowerBound rank p.1 a b := q1.lowerBound hlb3
      by_cases hlr : p.2.1 - a < b - p.2.1
      · simp only [if_pos hlr]
        obtain ⟨r1, r2⟩ := ih p.1 a p.2.1 limit1 true true (by omega) q2 (by omega)
          (fun ha k hk1 hk2 => hlbp ha k hk1 (by omega))
        generalize pdqsort less fuel p.1 a p.2.1 limit1 true true = d4 at r1 r2 ⊢
        have hlen4 : b ≤ d4.length := by rw [r1.length_eq]; exact hlenp
        have hmid : cell d4 p.2.1 = cell p.1 p.2.1 := r1.outside _ (by omega)
        have hright : ∀ k, p.2.1 < k → k < b → rank (cell d4 p.2.1) ≤ rank (cell d4 k) := by
          intro k hk1 hk2
          rw [hmid, r1.outside k (by omega)]
          exact q5 k hk1 hk2
        have hleft : ∀ k, a ≤ k → k < p.2.1 → rank (cell d4 k) ≤ rank (cell d4 p.2.1) := by
          intro k hk1 hk2
          rw [hmid]
          exact r1.forall_in (fun x => rank x ≤ rank (cell p.1 p.2.1)) q4 k hk1 hk2
        obtain ⟨s1, s2⟩ := ih d4 (p.2.1 + 1) b limit1
          (decide ((b - a) / 8 ≤ p.2.1 - a)) p.2.2 (by omega) (by omega) hlen4
          (by
            intro _ k hk1 hk2
            have e : p.2.1 + 1 - 1 = p.2.1 := by omega
            rw [e]
            exact hright k (by omega) hk2)
        generalize pdqsort less fuel d4 (p.2.1 + 1) b limit1
          (decide ((b - a) / 8 ≤ p.2.1 - a)) p.2.2 = out at s1 s2 ⊢
        refine ⟨hp3.trans (q1.trans ((r1.mono le_rfl (by omega) hlenp).trans
          (s1.mono (by omega) le_rfl hlen4))), ?_⟩
        have hom : cell out p.2.1 = cell d4 p.2.1 := s1.outside _ (by omega)
        refine @SortedOn.join _ _ _ _ rank out a p.2.1 b ?_ ?_ ?_ s2
        · intro k hk1 hk2
          rw [hom, s1.outside k (by omega)]
          exact hleft k hk1 hk2
        · intro k hk1 hk2
          rw [hom]
          exact s1.forall_in (fun x => rank (cell d4 p.2.1) ≤ rank x)
            (fun k h1 h2 => hright k (by omega) h2) k (by omega) hk2
        · intro i j hi hij hj
          rw [s1.outside i (by omega), s1.outside j (by omega)]
          exact r2 i j hi hij hj
      · simp only [if_neg hlr]
        obtain ⟨r1, r2⟩ := ih p.1 (p.2.1 + 1) b limit1 true true (by omega) (by omega) hlenp
          (by
            intro _ k hk1 hk2
            have e : p.2.1 + 1 - 1 = p.2.1 := by omega
            rw [e]
            exact q5 k (by omega) hk2)
        generalize pdqsort less fuel p.1 (p.2.1 + 1) b limit1 true true = d4 at r1 r2 ⊢
        have hlen4 : b ≤ d4.length := by rw [r1.length_eq]; exact hlenp
        have hmid : cell d4 p.2.1 = cell p.1 p.2.1 := r1.outside _ (by omega)
        have hright : ∀ k, p.2.1 < k → k < b → rank (cell d4 p.2.1) ≤ rank (cell d4 k) := by
          intro k hk1 hk2
          rw [hmid]
          exact r1.forall_in (fun x => rank (cell p.1 p.2.1) ≤ rank x)
            (fun k h1 h2 => q5 k (by omega) h2) k (by omega) hk2
        have hleft : ∀ k, a ≤ k → k < p.2.1 → rank (cell d4 k) ≤ rank (cell d4 p.2.1) := by
          intro k hk1 hk2
          rw [hmid, r1.outside k (by omega)]
          exact q4 k hk1 hk2
        obtain ⟨s1, s2⟩ := ih d4 a p.2.1 limit1
          (decide ((b - a) / 8 ≤ b - p.2.1)) p.2.2 (by omega) q2 (by omega)
          (by
            intro ha k hk1 hk2
            rw [r1.outside (a - 1) (by omega), r1.outside k (by omega)]
            exact hlbp ha k hk1 (by omega))
        generalize pdqsort less fuel d4 a p.2.1 limit1
          (decide ((b - a) / 8 ≤ b - p.2.1)) p.2.2 = out at s1 s2 ⊢
        refine ⟨hp3.trans (q1.trans ((r1.mono (by omega) le_rfl hlenp).trans
          (s1.mono le_rfl (by omega) hlen4))), ?_⟩
        have hom : cell out p.2.1 = cell d4 p.2.1 := s1.outside _ (by omega)
        refine @SortedOn.join _ _ _ _ rank out a p.2.1 b ?_ ?_ s2 ?_
        · intro k hk1 hk2
          rw [hom]
          exact s1.forall_in (fun x => rank x ≤ rank (cell d4 p.2.1)) hleft k hk1 hk2
        · intro k hk1 hk2
          rw [hom, s1.outside k (by omega)]
          exact hright k hk1 hk2
        · intro i j hi hij hj
          rw [s1.outside i (by omega), s1.outside j (by omega)]
          exact r2 i j hi hij hj


theorem sort_Sort_spec (rank : α → β) (less : LessFn α) (hL : LessBy rank less) (d : List α) :
    RangePerm 0 d.length d (sort_Sort less d) ∧ SortedOn rank (sort_Sort less d) 0 d.length := by
  unfold sort_Sort
  simp only []
  split_ifs with h
  · refine ⟨RangePerm.refl _, ?_⟩
    intro i j _ hij hj
    have : i = j := by omega
    rw [this]
  · exact pdqsort_spec rank less hL (d.length + 1) d 0 d.length (bitsLen d.length) true true
      (by omega) (Nat.zero_le _) le_rfl (fun h => by omega)

theorem sort_Sort_perm (rank : α → β) (less : LessFn α) (hL : LessBy rank less) (d : List α) :
    (sort_Sort less d).Perm d :=
  (sort_Sort_spec rank less hL d).1.perm

theorem sort_Sort_length (rank : α → β) (less : LessFn α) (hL : LessBy rank less)
    (d : List α) : (sort_Sort less d).length = d.length :=
  (sort_Sort_spec rank less hL d).1.length_eq

theorem sort_Sort_of_sorted (rank : α → β) (less : LessFn α) (hL : LessBy rank less)
    (d : List α) (hs : SortedOn rank d 0 d.length) : sort_Sort less d = d := by
  unfold sort_Sort
  simp only []
  split_ifs with h
  · rfl
  · rw [pdqsort]
    simp only []
    by_cases h12 : d.length - 0 ≤ 12
    · rw [if_pos h12]
      exact insertionSort_sorted rank less hL d 0 d.length hs
    · rw [if_neg h12]
      have hb := (bitsLen_pow d.length (by omega)).2
      rw [if_neg (by omega)]
      have hc := choosePivot_sorted rank less hL d 0 d.length hs
      have hp := partialInsertionSort_sorted rank less hL d 0 d.length (by omega) hs
      simp [hc, hp]

theorem SortedOn.pairwise {rank : α → β} {d : List α} (hs : SortedOn rank d 0 d.length) :
    d.Pairwise (fun x y => rank x ≤ rank y) := by
  rw [List.pairwise_iff_getElem]
  intro i j hi hj hij
  have := hs i j (Nat.zero_le _) (le_of_lt hij) hj
  rwa [cell_eq_getElem d i hi, cell_eq_getElem d j hj] at this

theorem SortedOn.of_pairwise {rank : α → β} {d : List α}
    (hs : d.Pairwise (fun x y => rank x ≤ rank y)) : SortedOn rank d 0 d.length := by
  rw [List.pairwise_iff_getElem] at hs
  intro i j _ hij hj
  rw [cell_eq_getElem d i (by omega), cell_eq_getElem d j hj]
  by_cases h : i = j
  · subst h; exact le_rfl
  · exact hs i j (by omega) hj (by omega)

end GoSort

open GoSort

theorem ByDate.Less_iff (d : ByDate) (i j : Nat) :
    ByDate.Less d i j = true ↔ Event.laterThan (cell d i) (cell d j) := by
  unfold ByDate.Less Event.laterThan
  by_cases h1 : (cell d i).Year = (cell d j).Year
  · by_cases h2 : (cell d i).Month = (cell d j).Month
    · simp [h1, h2]
    · simp [h1, h2]
  · simp [h1]

theorem dateRank_lt_iff (x y : Event) : dateRank x < dateRank y ↔ Event.laterThan x y := by
  unfold dateRank Event.laterThan
  simp only [Prod.Lex.lt_iff, neg_lt_neg_iff, neg_inj, ofLex_toLex, gt_iff_lt]

theorem dateRank_eq_iff (x y : Event) : dateRank x = dateRank y ↔ Event.sameDate x y := by
  unfold dateRank Event.sameDate
  constructor
  · intro h
    have h1 := congrArg (fun p => (ofLex p).1) h
    have h2 := congrArg (fun p => (ofLex (ofLex p).2).1) h
    have h3 := congrArg (fun p => (ofLex (ofLex p).2).2) h
    simp only [ofLex_toLex, neg_inj] at h1 h2 h3
    exact ⟨h1, h2, h3⟩
  · rintro ⟨h1, h2, h3⟩
    rw [h1, h2, h3]

theorem dateRank_le_iff (x y : Event) : dateRank x ≤ dateRank y ↔ Event.notEarlierThan x y := by
  rw [le_iff_lt_or_eq, dateRank_lt_iff, dateRank_eq_iff]
  rfl

theorem ByDate.lessBy : LessBy dateRank ByDate.Less := by
  intro d i j
  rw [ByDate.Less_iff, dateRank_lt_iff]

theorem sortEvents_perm (events : List Event) : (sortEvents events).Perm events :=
  sort_Sort_perm dateRank ByDate.Less ByDate.lessBy events

theorem sortEvents_pairwise (events : List Event) :
    (sortEvents events).Pairwise (fun x y => Event.notEarlierThan x y) := by
  have h := (sort_Sort_spec dateRank ByDate.Less ByDate.lessBy events).2
  rw [← sort_Sort_length dateRank ByDate.Less ByDate.lessBy events] at h
  have := h.pairwise
  simp only [dateRank_le_iff] at this
  exact this


theorem sortEvents_of_chain (events : List Event)
    (h : List.Chain' (fun x y => Event.notEarlierThan x y) events) :
    sortEvents events = events := by
  apply sort_Sort_of_sorted dateRank ByDate.Less ByDate.lessBy
  apply SortedOn.of_pairwise
  have h' : List.Chain' (fun x y => dateRank x ≤ dateRank y) events := by
    simp only [dateRank_le_iff]
    exact h
  haveI : IsTrans Event (fun x y => dateRank x ≤ dateRank y) := ⟨fun _ _ _ => le_trans⟩
  exact List.chain'_iff_pairwise.mp h'

theorem sortEvents_strict (events : List Event)
    (hd : events.Pairwise (fun x y => ¬ Event.sameDate x y)) :
    (sortEvents events).Pairwise (fun x y => Event.laterThan x y) := by
  have h1 := sortEvents_pairwise events
  have h2 : (sortEvents events).Pairwise (fun x y => ¬ Event.sameDate x y) :=
    ((sortEvents_perm events).pairwise_iff (fun {x y} h hxy => h ⟨hxy.1.symm, hxy.2.1.symm,
      hxy.2.2.symm⟩)).mpr hd
  refine (h1.and h2).imp ?_
  rintro x y ⟨h | h, hn⟩
  · exact h
  · exact absurd h hn

theorem sortEvents_congr (l1 l2 : List Event) (hp : l1.Perm l2)
    (hd : l1.Pairwise (fun x y => ¬ Event.sameDate x y)) : sortEvents l1 = sortEvents l2 := by
  have hd2 : l2.Pairwise (fun x y => ¬ Event.sameDate x y) :=
    (hp.pairwise_iff (fun {x y} h hxy => h ⟨hxy.1.symm, hxy.2.1.symm, hxy.2.2.symm⟩)).mp hd
  haveI : IsAntisymm Event (fun x y => Event.laterThan x y) :=
    ⟨fun x y h1 h2 => by
      rw [← dateRank_lt_iff] at h1 h2
      exact absurd h1 (lt_asymm h2)⟩
  exact List.eq_of_perm_of_sorted
    (((sortEvents_perm l1).trans hp).trans (sortEvents_perm l2).symm)
    (sortEvents_strict l1 hd) (sortEvents_strict l2 hd2)

theorem foldl_append_blocks (l : List Event) (acc : String) :
    l.foldl (fun htmlContent event => htmlContent ++ eventBlock event) acc =
      acc ++ String.join (l.map eventBlock) := by
  induction l generalizing acc with
  | nil =>
    apply String.ext
    simp
  | cons e l ih =>
    simp only [List.foldl_cons, List.map_cons, ih]
    apply String.ext
    simp

theorem createHtml_eq (events : List Event) :
    createHtml events =
      htmlHead ++ String.join ((sortEvents events).map eventBlock) ++ htmlTail := by
  unfold createHtml
  simp only [foldl_append_blocks]

theorem sortEvents_pair (e1 e2 : Event) (h : Event.laterThan e2 e1) :
    sortEvents [e1, e2] = [e2, e1] ∧ sortEvents [e2, e1] = [e2, e1] := by
  constructor
  · have h1 : ByDate.Less [e1, e2] 1 0 = true := by
      rw [ByDate.Less_iff]; exact h
    simp [sortEvents, sort_Sort, pdqsort, insertionSort, insertionSortInner, h1, List.range',
      Swap, cell]
  · apply sortEvents_of_chain
    simp [Event.notEarlierThan, h]


set_option maxRecDepth 100000 in
theorem eventBlock_data (e : Event) :
    (eventBlock e).data =
      "\n    <div class=\"event\">\n        <div class=\"event-date\">".data
        ++ ((fmtInt e.Day).data ++ ("/".data ++ ((fmtInt e.Month).data ++ ("/".data
        ++ ((fmtInt e.Year).data
        ++ ("</div>\n        <h2 class=\"event-name\">".data ++ (e.EventName.data
        ++ ("</h2>\n        <span class=\"event-urgency ".data ++ ((urgencyClass e).data
        ++ ("\">".data ++ ((urgencyText e).data ++ "</span>\n    </div>".data))))))))))) := by
  rfl

theorem eventBlock_eq (e : Event) :
    eventBlock e =
      "\n    <div class=\"event\">\n        <div class=\"event-date\">"
        ++ fmtInt e.Day ++ "/" ++ fmtInt e.Month ++ "/" ++ fmtInt e.Year
        ++ "</div>\n        <h2 class=\"event-name\">" ++ e.EventName
        ++ "</h2>\n        <span class=\"event-urgency " ++ urgencyClass e
        ++ "\">" ++ urgencyText e ++ "</span>\n    </div>" := by
  apply String.ext
  rw [eventBlock_data]
  simp only [String.data_append, List.append_assoc]

theorem toDigitsCore_eq_digits : ∀ (fuel n : Nat) (acc : List Char), n < fuel → 0 < n →
    Nat.toDigitsCore 10 fuel n acc = (Nat.digits 10 n).reverse.map Nat.digitChar ++ acc := by
  intro fuel
  induction fuel with
  | zero => intro n acc h; omega
  | succ fuel ih =>
    intro n acc hn hpos
    rw [Nat.toDigitsCore]
    rw [Nat.digits_def' (by norm_num) hpos]
    by_cases h0 : n / 10 = 0
    · rw [if_pos h0, h0]
      simp
    · rw [if_neg h0, ih (n / 10) _ (by omega) (by omega)]
      simp

theorem fmtInt_digits (n : Nat) (h : 0 < n) :
    fmtInt (n : Int) = String.mk ((Nat.digits 10 n).reverse.map Nat.digitChar) := by
  show String.mk (Nat.toDigits 10 n) = _
  rw [Nat.toDigits, toDigitsCore_eq_digits (n + 1) n [] (by omega) h]
  simp

/-- C1: the sort step of `createHtml` reorders the events of the list (the result is a
permutation of the input) so that each event's date is later than or equal to the date of
the event that follows it; when the dates of the input are pairwise distinct each date is
strictly later than the next. -/
theorem C1_sort_descending (events : List Event) :
    (sortEvents events).Perm events ∧
      List.Chain' (fun x y => Event.notEarlierThan x y) (sortEvents events) ∧
      (events.Pairwise (fun x y => ¬ Event.sameDate x y) →
        List.Chain' (fun x y => Event.laterThan x y) (sortEvents events)) :=
  ⟨sortEvents_perm events, (sortEvents_pairwise events).chain',
    fun hd => (sortEvents_strict events hd).chain'⟩

/-- C1 at four events, two of them on one date, and at three events of distinct dates,
with the sequences the sort returns. -/
theorem C1_sort_descending_witness :
    sortEvents [oldEvent, matchaEvent, teaEvent, markupEvent] =
        [markupEvent, matchaEvent, teaEvent, oldEvent] ∧
      (sortEvents [oldEvent, matchaEvent, teaEvent, markupEvent]).Perm
        [oldEvent, matchaEvent, teaEvent, markupEvent] ∧
      List.Chain' (fun x y => Event.notEarlierThan x y)
        (sortEvents [oldEvent, matchaEvent, teaEvent, markupEvent]) ∧
      sortEvents [oldEvent, matchaEvent, markupEvent] =
        [markupEvent, matchaEvent, oldEvent] ∧
      List.Chain' (fun x y => Event.laterThan x y)
        (sortEvents [oldEvent, matchaEvent, markupEvent]) :=
  ⟨by decide, (C1_sort_descending [oldEvent, matchaEvent, teaEvent, markupEvent]).1,
    (C1_sort_descending [oldEvent, matchaEvent, teaEvent, markupEvent]).2.1, by decide,
    (C1_sort_descending [oldEvent, matchaEvent, markupEvent]).2.2 (by decide)⟩

/-- C2: `createHtml` returns the fixed head, then one block per event in the sorted,
most-recent-first order, then the closing lines; of two events dated 2025-08-01 and
2025-08-02, given in either order, the block of 2025-08-02 comes first; for no event the
result is the head followed by the closing lines. -/
theorem C2_document_shape :
    (∀ events : List Event,
      createHtml events =
          htmlHead ++ String.join ((sortEvents events).map eventBlock) ++ htmlTail ∧
        (sortEvents events).Perm events ∧
        (sortEvents events).Pairwise (fun x y => Event.notEarlierThan x y)) ∧
    (∀ e1 e2 : Event, e1.Year = 2025 ∧ e1.Month = 8 ∧ e1.Day = 1 →
      e2.Year = 2025 ∧ e2.Month = 8 ∧ e2.Day = 2 →
      createHtml [e1, e2] = htmlHead ++ eventBlock e2 ++ eventBlock e1 ++ htmlTail ∧
        createHtml [e2, e1] = htmlHead ++ eventBlock e2 ++ eventBlock e1 ++ htmlTail) ∧
    createHtml [] = htmlHead ++ htmlTail := by
  refine ⟨fun events => ⟨createHtml_eq events, sortEvents_perm events,
    sortEvents_pairwise events⟩, ?_, ?_⟩
  · intro e1 e2 h1 h2
    have hl : Event.laterThan e2 e1 := by
      unfold Event.laterThan
      rw [h1.1, h1.2.1, h1.2.2, h2.1, h2.2.1, h2.2.2]
      decide
    obtain ⟨p1, p2⟩ := sortEvents_pair e1 e2 hl
    rw [createHtml_eq, createHtml_eq, p1, p2]
    constructor <;> (apply String.ext; simp)
  · rw [createHtml_eq]
    have : sortEvents [] = [] := rfl
    rw [this]
    apply String.ext
    simp

/-- C2 at the events of 2025-08-01 and 2025-08-02, in both input orders. -/
theorem C2_document_shape_witness :
    createHtml [matchaEvent, markupEvent] =
        htmlHead ++ eventBlock markupEvent ++ eventBlock matchaEvent ++ htmlTail ∧
      createHtml [markupEvent, matchaEvent] =
        htmlHead ++ eventBlock markupEvent ++ eventBlock matchaEvent ++ htmlTail :=
  C2_document_shape.2.1 matchaEvent markupEvent ⟨rfl, rfl, rfl⟩ ⟨rfl, rfl, rfl⟩

/-- C3: the urgency badge of a rendered block has class `important` and label "Wichtig"
exactly when the event's Urgency is the string `important`; for every other value (among
them `normal`, `urgent`, the empty string and `Important`) it has class `normal` and label
"Normal". Rendering is a total function: no value raises an error. -/
theorem C3_urgency_badge (e : Event) :
    eventBlock e =
        "\n    <div class=\"event\">\n        <div class=\"event-date\">"
          ++ fmtInt e.Day ++ "/" ++ fmtInt e.Month ++ "/" ++ fmtInt e.Year
          ++ "</div>\n        <h2 class=\"event-name\">" ++ e.EventName ++ "</h2>\n        "
          ++ "<span class=\"event-urgency " ++ urgencyClass e ++ "\">" ++ urgencyText e
          ++ "</span>" ++ "\n    </div>" ∧
      ((urgencyClass e = "important" ∧ urgencyText e = "Wichtig") ↔
        e.Urgency = "important") ∧
      (e.Urgency ≠ "important" → urgencyClass e = "normal" ∧ urgencyText e = "Normal") ∧
      (∀ u ∈ ["normal", "urgent", "", "Important"],
        urgencyClass { e with Urgency := u } = "normal" ∧
          urgencyText { e with Urgency := u } = "Normal") := by
  refine ⟨?_, ?_, ?_, ?_⟩
  · apply String.ext
    rw [eventBlock_data]
    simp only [String.data_append, List.append_assoc]
    rfl
  · unfold urgencyClass urgencyText
    by_cases h : e.Urgency = "important"
    · simp [h]
    · simp only [if_neg h, h, iff_false, not_and]
      intro h'
      exact absurd h' (by decide)
  · intro h
    unfold urgencyClass urgencyText
    simp [h]
  · intro u hu
    unfold urgencyClass urgencyText
    have : u ≠ "important" := by
      simp only [List.mem_cons, List.mem_singleton, List.not_mem_nil, or_false] at hu
      rcases hu with h | h | h | h <;> (rw [h]; decide)
    simp [this]

/-- C3 at an event of urgency `important` and at one of urgency `urgent`. -/
theorem C3_urgency_badge_witness :
    urgencyClass markupEvent = "important" ∧ urgencyText markupEvent = "Wichtig" ∧
      urgencyClass teaEvent = "normal" ∧ urgencyText teaEvent = "Normal" :=
  ⟨((C3_urgency_badge markupEvent).2.1.mpr rfl).1, ((C3_urgency_badge markupEvent).2.1.mpr rfl).2,
    ((C3_urgency_badge teaEvent).2.2.1 (by decide)).1,
    ((C3_urgency_badge teaEvent).2.2.1 (by decide)).2⟩

/-- C4: sorting is idempotent. A sequence of events already sorted by `ByDate` (no event
earlier than the one after it) comes out of `sort.Sort` unchanged, element for element,
also when several events share a date; in particular sorting the result of a sort gives
that result again. -/
theorem C4_sort_idempotent :
    (∀ events : List Event, List.Chain' (fun x y => Event.notEarlierThan x y) events →
      sortEvents events = events) ∧
    (∀ events : List Event, sortEvents (sortEvents events) = sortEvents events) :=
  ⟨sortEvents_of_chain, fun events =>
    sortEvents_of_chain _ (sortEvents_pairwise events).chain'⟩

/-- C4 at two sorted sequences that hold the two events of 2025-08-01 in either order. -/
theorem C4_sort_idempotent_witness :
    sortEvents [markupEvent, teaEvent, matchaEvent, oldEvent] =
        [markupEvent, teaEvent, matchaEvent, oldEvent] ∧
      sortEvents [markupEvent, matchaEvent, teaEvent, oldEvent] =
        [markupEvent, matchaEvent, teaEvent, oldEvent] :=
  ⟨C4_sort_idempotent.1 _ (List.Pairwise.chain' (by decide)),
    C4_sort_idempotent.1 _ (List.Pairwise.chain' (by decide))⟩


theorem Getenv_apiKey_missing (w : World) (h : apiKeyMissing w) : Getenv w "API_KEY" = "" := by
  unfold Getenv
  rw [h.1, h.2]

/-- C5, as stated, fails: in the run `worldNoKey` the variable `API_KEY` is set nowhere,
yet `main` does not abort before the send; it calls the provider once, with the empty
string as credential, and ends normally. -/
theorem C5_missing_key_counterexample :
    apiKeyMissing worldNoKey ∧
      (main worldNoKey).sends =
        [("", { To := ["me@example.org"], From := "remainders@carlinux.me",
                Html := createHtml [], Subject := "Daily reminder :)" })] ∧
      (main worldNoKey).panicked = false :=
  ⟨⟨rfl, rfl⟩, rfl, rfl⟩

/-- C5, amended: when `API_KEY` is missing, `sendEmail` reads it as the empty string. If
loading `.env`, `createFile` and `readFile` succeed, `main` makes exactly one send call,
with the empty credential and the rendered document; no send call is made, and the run
panics, only when one of those earlier steps fails. -/
theorem C5_missing_key_sends_empty_credential (w : World) (h : apiKeyMissing w) :
    (∀ events, reachesSend w events →
      (main w).sends =
        [("", { To := [Getenv w "EMAIL"], From := "remainders@carlinux.me",
                Html := createHtml events, Subject := "Daily reminder :)" })]) ∧
    ((¬ ∃ events, reachesSend w events) → (main w).sends = [] ∧ (main w).panicked = true) := by
  have hk := Getenv_apiKey_missing w h
  constructor
  · rintro events ⟨h1, content, h2, h3⟩
    unfold main
    cases hd : w.dotenv with
    | none => rw [hd] at h1; simp at h1
    | some kv =>
      simp only [h2, h3]
      unfold sendEmail
      simp only [hk]
      cases w.emailsSend "" _ <;> rfl
  · intro hn
    unfold main
    cases hd : w.dotenv with
    | none => exact ⟨rfl, rfl⟩
    | some kv =>
      simp only []
      cases hc : createFile w with
      | none => exact ⟨rfl, rfl⟩
      | some content =>
        simp only []
        cases hr : readFile w content with
        | none => exact ⟨rfl, rfl⟩
        | some events =>
          exact absurd ⟨events, by rw [hd]; rfl, content, hc, hr⟩ hn

/-- C5, amended, at the run `worldNoKey`. -/
theorem C5_missing_key_sends_empty_credential_witness :
    apiKeyMissing worldNoKey ∧
      (main worldNoKey).sends =
        [("", { To := [Getenv worldNoKey "EMAIL"], From := "remainders@carlinux.me",
                Html := createHtml [], Subject := "Daily reminder :)" })] :=
  ⟨⟨rfl, rfl⟩, (C5_missing_key_sends_empty_credential worldNoKey ⟨rfl, rfl⟩).1 []
    ⟨rfl, _, rfl, rfl⟩⟩

/-- C6: the rendered block of an event holds its date as day, month and year in that
order, each written in decimal without padding (a minus sign before a negative number),
separated by `/`, whatever the three integers are. The event of 1/8/2025 with urgency
`normal` renders `1/8/2025`, the label "Normal" and the class `normal`. -/
theorem C6_date_rendering :
    (∀ e : Event,
      eventBlock e =
        "\n    <div class=\"event\">\n        <div class=\"event-date\">"
          ++ (fmtInt e.Day ++ "/" ++ fmtInt e.Month ++ "/" ++ fmtInt e.Year) ++ "</div>"
          ++ ("\n        <h2 class=\"event-name\">" ++ e.EventName
          ++ "</h2>\n        <span class=\"event-urgency " ++ urgencyClass e
          ++ "\">" ++ urgencyText e ++ "</span>\n    </div>")) ∧
    (∀ n : Nat, 0 < n →
      fmtInt (n : Int) = String.mk ((Nat.digits 10 n).reverse.map Nat.digitChar)) ∧
    fmtInt 0 = "0" ∧
    (∀ n : Nat, 0 < n → fmtInt (-(n : Int)) = "-" ++ fmtInt (n : Int)) ∧
    (∀ e : Event, e.Day = 1 → e.Month = 8 → e.Year = 2025 → e.Urgency = "normal" →
      eventBlock e =
        "\n    <div class=\"event\">\n        <div class=\"event-date\">1/8/2025</div>"
          ++ "\n        <h2 class=\"event-name\">" ++ e.EventName ++ "</h2>"
          ++ "\n        <span class=\"event-urgency normal\">Normal</span>\n    </div>") := by
  refine ⟨?_, fmtInt_digits, rfl, ?_, ?_⟩
  · intro e
    apply String.ext
    rw [eventBlock_data]
    simp only [String.data_append, List.append_assoc]
    rfl
  · intro n hn
    obtain ⟨m, rfl⟩ : ∃ m, n = m + 1 := ⟨n - 1, by omega⟩
    have e1 : (-((m + 1 : Nat) : Int)) = Int.negSucc m := rfl
    rw [e1]
    apply String.ext
    simp only [String.data_append]
    rfl
  · intro e h1 h2 h3 h4
    apply String.ext
    rw [eventBlock_data]
    unfold urgencyClass urgencyText
    rw [h1, h2, h3, h4]
    simp only [String.data_append, List.append_assoc]
    rfl

/-- C6 at the event of the row `0,2025,8,1,"Going for a matcha",1,once,normal`. -/
theorem C6_date_rendering_witness :
    eventBlock matchaEvent =
      "\n    <div class=\"event\">\n        <div class=\"event-date\">1/8/2025</div>"
        ++ "\n        <h2 class=\"event-name\">" ++ "Going for a matcha" ++ "</h2>"
        ++ "\n        <span class=\"event-urgency normal\">Normal</span>\n    </div>" :=
  C6_date_rendering.2.2.2.2 matchaEvent rfl rfl rfl rfl

/-- C7: the rendered block holds `<h2 class="event-name">`, then the event's name exactly
as given, then `</h2>`; what stands before depends only on the date and what stands after
only on the urgency, so no character of the name is escaped, dropped or read as a
format. -/
theorem C7_name_verbatim (e : Event) (name : String) :
    eventBlock { e with EventName := name } =
      ("\n    <div class=\"event\">\n        <div class=\"event-date\">"
          ++ fmtInt e.Day ++ "/" ++ fmtInt e.Month ++ "/" ++ fmtInt e.Year ++ "</div>\n        ")
        ++ ("<h2 class=\"event-name\">" ++ name ++ "</h2>")
        ++ ("\n        <span class=\"event-urgency " ++ urgencyClass e ++ "\">"
          ++ urgencyText e ++ "</span>\n    </div>") := by
  apply String.ext
  rw [eventBlock_data]
  simp only [String.data_append, List.append_assoc]
  rfl

/-- C7 at a name that holds `<`, `>`, `&`, `"` and `%`. -/
theorem C7_name_verbatim_witness :
    eventBlock markupEvent =
      "\n    <div class=\"event\">\n        <div class=\"event-date\">2/8/2025</div>\n        "
        ++ ("<h2 class=\"event-name\">" ++ "<b>50% & \"x\"</b> %d %s" ++ "</h2>")
        ++ "\n        <span class=\"event-urgency important\">Wichtig</span>\n    </div>" := by
  have h := C7_name_verbatim markupEvent "<b>50% & \"x\"</b> %d %s"
  have e : ({ markupEvent with EventName := "<b>50% & \"x\"</b> %d %s" } : Event) = markupEvent :=
    rfl
  rw [e] at h
  rw [h]
  apply String.ext
  simp only [String.data_append, List.append_assoc]
  rfl

/-- C8: `ByDate.Less` is a strict weak ordering and not a total order. `Less(i, j)` holds
exactly when the date of cell `i` is lexicographically later than that of cell `j`; it is
irreflexive and transitive; two cells are incomparable exactly when year, month and day
all match, and incomparability is transitive. Events that differ only in id, name or
urgency are not ordered by it. -/
theorem C8_less_weak_order :
    (∀ (s : ByDate) (i j : Nat),
      ByDate.Less s i j = true ↔ Event.laterThan (cell s i) (cell s j)) ∧
    (∀ (s : ByDate) (i : Nat), ByDate.Less s i i = false) ∧
    (∀ (s : ByDate) (i j k : Nat), ByDate.Less s i j = true → ByDate.Less s j k = true →
      ByDate.Less s i k = true) ∧
    (∀ (s : ByDate) (i j : Nat),
      (ByDate.Less s i j = false ∧ ByDate.Less s j i = false) ↔
        Event.sameDate (cell s i) (cell s j)) ∧
    (∀ (s : ByDate) (i j k : Nat),
      (ByDate.Less s i j = false ∧ ByDate.Less s j i = false) →
      (ByDate.Less s j k = false ∧ ByDate.Less s k j = false) →
      (ByDate.Less s i k = false ∧ ByDate.Less s k i = false)) ∧
    (∀ x y : Event, Event.sameDate x y →
      ByDate.Less [x, y] 0 1 = false ∧ ByDate.Less [x, y] 1 0 = false) ∧
    (∃ x y : Event, x ≠ y ∧ ByDate.Less [x, y] 0 1 = false ∧ ByDate.Less [x, y] 1 0 = false) := by
  have hlt := ByDate.lessBy
  have hge : ∀ (s : ByDate) (i j : Nat),
      ByDate.Less s i j = false ↔ dateRank (cell s j) ≤ dateRank (cell s i) :=
    fun s i j => hlt.ge s i j
  have hinc : ∀ (s : ByDate) (i j : Nat),
      (ByDate.Less s i j = false ∧ ByDate.Less s j i = false) ↔
        Event.sameDate (cell s i) (cell s j) := by
    intro s i j
    rw [hge, hge, ← dateRank_eq_iff]
    constructor
    · rintro ⟨h1, h2⟩; exact le_antisymm h2 h1
    · intro h; exact ⟨le_of_eq h.symm, le_of_eq h⟩
  refine ⟨ByDate.Less_iff, ?_, ?_, hinc, ?_, ?_, ?_⟩
  · intro s i
    rw [hge]
  · intro s i j k h1 h2
    rw [hlt.lt] at h1 h2 ⊢
    exact lt_trans h1 h2
  · intro s i j k h1 h2
    rw [hinc] at h1 h2 ⊢
    exact ⟨h1.1.trans h2.1, h1.2.1.trans h2.2.1, h1.2.2.trans h2.2.2⟩
  · intro x y h
    exact (hinc [x, y] 0 1).mpr h
  · exact ⟨matchaEvent, teaEvent, by decide, by decide, by decide⟩

/-- C8 at two distinct events of 2025-08-01. -/
theorem C8_less_weak_order_witness :
    ByDate.Less [matchaEvent, teaEvent] 0 1 = false ∧
      ByDate.Less [matchaEvent, teaEvent] 1 0 = false :=
  C8_less_weak_order.2.2.2.2.2.1 matchaEvent teaEvent (by decide)

/-- C9: the sort step of `createHtml` only reorders; the sorted sequence is a permutation
of the input, so the document holds exactly one block per input event. -/
theorem C9_sort_permutes (events : List Event) :
    (sortEvents events).Perm events ∧
      (sortEvents events).length = events.length ∧
      (∀ e : Event, (sortEvents events).count e = events.count e) ∧
      ∃ blocks : List String,
        createHtml events = htmlHead ++ String.join blocks ++ htmlTail ∧
          blocks.length = events.length ∧ blocks.Perm (events.map eventBlock) := by
  have hp := sortEvents_perm events
  refine ⟨hp, hp.length_eq, fun e => hp.count_eq e,
    (sortEvents events).map eventBlock, createHtml_eq events, ?_, hp.map eventBlock⟩
  rw [List.length_map, hp.length_eq]

/-- C9 at a list that holds one event twice. -/
theorem C9_sort_permutes_witness :
    (sortEvents [matchaEvent, teaEvent, matchaEvent, markupEvent]).Perm
      [matchaEvent, teaEvent, matchaEvent, markupEvent] :=
  (C9_sort_permutes [matchaEvent, teaEvent, matchaEvent, markupEvent]).1

/-- C10: two lists of events that are permutations of each other, with pairwise distinct
dates, render to the same document: without two events on one date the order of the rows
does not matter. -/
theorem C10_order_independent (l1 l2 : List Event) (hp : l1.Perm l2)
    (hd : l1.Pairwise (fun x y => ¬ Event.sameDate x y)) : createHtml l1 = createHtml l2 := by
  rw [createHtml_eq, createHtml_eq, sortEvents_congr l1 l2 hp hd]

/-- C10 at three events of distinct dates and their reversal. -/
theorem C10_order_independent_witness :
    createHtml [matchaEvent, markupEvent, oldEvent] =
      createHtml [oldEvent, markupEvent, matchaEvent] :=
  C10_order_independent [matchaEvent, markupEvent, oldEvent] [oldEvent, markupEvent, matchaEvent]
    (List.reverse_perm [oldEvent, markupEvent, matchaEvent]) (by decide)

end Calcxporter
